import Mathlib

/-!
Verification development for the go-websocket fan-out broker.

The definitions below are a shallow embedding of the repository source:

* `internal/ws/hub.go` — sharded connection registry (register, unregister,
  broadcast with eviction), modelled as a step function on an explicit
  registry state;
* `internal/ws/client.go` — client message handling (typing events);
* `internal/redis/client.go` / `internal/redis/pubsub.go` — the event
  publisher and the bridge from the external transport into the hub;
* `cmd/server/main.go` (package auth part) — JWKS refresh, key derivation
  and bearer-token validation;
* `internal/ws/message.go` — the ServeWS handshake gate.

Go maps keyed by strings or pointers are modelled as association lists,
channels as explicit queues with a capacity, machine integers as `Nat`
or `Int` with explicit reduction modulo a power of two where overflow
matters.
-/

set_option autoImplicit false

namespace GoWS

/-! ## Association list helpers (model of Go maps) -/

/-- Lookup in an association list, the model of a Go map read. -/
def lookupA {κ α : Type} [DecidableEq κ] : List (κ × α) → κ → Option α
  | [], _ => none
  | (k, v) :: rest, key => if k = key then some v else lookupA rest key

/-- Update or insert a binding, the model of a Go map write. -/
def updateA {κ α : Type} [DecidableEq κ] : List (κ × α) → κ → α → List (κ × α)
  | [], key, val => [(key, val)]
  | (k, v) :: rest, key, val =>
      if k = key then (key, val) :: rest else (k, v) :: updateA rest key val

/-- Remove a binding, the model of a Go map delete. -/
def eraseA {κ α : Type} [DecidableEq κ] : List (κ × α) → κ → List (κ × α)
  | [], _ => []
  | (k, v) :: rest, key => if k = key then rest else (k, v) :: eraseA rest key

/-- Number of registry buckets (hub.go, const numBuckets = 32). -/
def numBuckets : Nat := 32

/-- 32-bit FNV-1a over a byte sequence, as computed by hash/fnv New32a. -/
def fnv1a32 (bytes : List Nat) : Nat :=
  bytes.foldl (fun h b => ((h ^^^ b) * 16777619) % 2 ^ 32) 2166136261

/-- UTF-8 bytes of a string, the byte content of String.toUTF8. -/
def strBytes (s : String) : List Nat :=
  (s.data.flatMap String.utf8EncodeChar).map (fun b => b.toNat)

/-- Bucket index of a channel id (hub.go, getBucket): FNV-1a of the UTF-8
bytes of the id, modulo the bucket count. -/
def getBucket (channelId : String) : Nat :=
  fnv1a32 (strBytes channelId) % numBuckets

/-! ## Hub registry state (hub.go)

A `Client` (client.go) is identified by an opaque handle, modelled as a
natural number; its mutable part — the outbound `send` queue created by
ServeWS with `make(chan []byte, 256)`, and whether that queue has been
closed — lives in a client store.  Each bucket owns a map from channel id
to the set of member clients, modelled as an association list of member
lists.  The hub Run loop serializes register, unregister and broadcast
requests, so the three handlers are modelled as a step function on the
registry state. -/

/-- Opaque handle of one Client struct. -/
abbrev ClientId := Nat

/-- Mutable view of one Client: identity fields fixed at construction
(client.go, struct Client) plus the outbound queue contents, its capacity,
and whether close(client.send) has run.  closeCount is a ghost counter of
how many times close(client.send) executed. -/
structure ClientRec where
  channelId : String
  userId : String
  userName : String
  qcap : Nat
  queue : List String
  closed : Bool
  closeCount : Nat
  deriving DecidableEq, Repr

/-- Event published to Redis by the hub (hub.go via RedisPublisher). -/
inductive PubEvent where
  | presenceJoin (channelId userId userName : String)
  | presenceLeave (channelId userId : String)
  deriving DecidableEq, Repr

/-- Requests arriving at the hub Run loop. -/
inductive HubOp where
  | register (cid : ClientId) (channelId userId userName : String) (qcap : Nat)
  | unregister (cid : ClientId)
  | broadcast (channelId payload : String)
  deriving DecidableEq, Repr

/-- Registry state: the 32 bucket maps (channel id to member list) and the
store of all client records ever created. -/
structure HubState where
  buckets : List (List (String × List ClientId))
  clients : List (ClientId × ClientRec)
  deriving DecidableEq, Repr

/-- Bucket map at index i. -/
def bucketMapAt (s : HubState) (i : Nat) : List (String × List ClientId) :=
  s.buckets.getD i []

/-- Entry of a channel in its owning bucket, if present. -/
def chanEntry (s : HubState) (ch : String) : Option (List ClientId) :=
  lookupA (bucketMapAt s (getBucket ch)) ch

/-- Members of a channel (empty when the channel has no entry). -/
def membersOf (s : HubState) (ch : String) : List ClientId :=
  (chanEntry s ch).getD []

/-- Record of a client in the store. -/
def clientRec (s : HubState) (cid : ClientId) : Option ClientRec :=
  lookupA s.clients cid

/-- Model of hub.go registerClient: insert the client into its channel set
in the owning bucket, creating the set if absent, then publish a
presence:join event.  The record models the Client constructed by ServeWS
(empty outbound queue, not closed). -/
def registerClient (s : HubState) (cid : ClientId)
    (ch uid uname : String) (qcap : Nat) : HubState × List PubEvent :=
  let i := getBucket ch
  let m := bucketMapAt s i
  let members := (lookupA m ch).getD []
  let members1 := if cid ∈ members then members else members ++ [cid]
  let cr : ClientRec :=
    { channelId := ch, userId := uid, userName := uname,
      qcap := qcap, queue := [], closed := false, closeCount := 0 }
  ({ buckets := s.buckets.set i (updateA m ch members1),
     clients := updateA s.clients cid cr },
   [PubEvent.presenceJoin ch uid uname])

/-- Model of hub.go unregisterClient: if the client is present in its
channel set, remove it, close its queue, delete the channel entry when the
set became empty, and publish presence:leave; otherwise do nothing (the
removal is idempotent and presence:leave fires only on actual removal). -/
def unregisterClient (s : HubState) (cid : ClientId) : HubState × List PubEvent :=
  match lookupA s.clients cid with
  | none => (s, [])
  | some cr =>
    let ch := cr.channelId
    let i := getBucket ch
    let m := bucketMapAt s i
    match lookupA m ch with
    | none => (s, [])
    | some members =>
      if cid ∈ members then
        let members1 := members.erase cid
        let m1 := if members1 = [] then eraseA m ch else updateA m ch members1
        let cr1 := { cr with closed := true, closeCount := cr.closeCount + 1 }
        ({ buckets := s.buckets.set i m1,
           clients := updateA s.clients cid cr1 },
         [PubEvent.presenceLeave ch cr.userId])
      else (s, [])

/-- Model of one iteration of the broadcast delivery loop (hub.go,
broadcastToChannel): a non-blocking send on the client queue — the
`select { case client.send <- payload: default: }` — enqueues when the
queue has spare capacity and otherwise closes the queue and deletes the
client from the set.  The accumulator carries the evolving client store
and the members kept so far. -/
def broadcastStep (p : String)
    (acc : List (ClientId × ClientRec) × List ClientId) (cid : ClientId) :
    List (ClientId × ClientRec) × List ClientId :=
  match lookupA acc.1 cid with
  | none => (acc.1, acc.2 ++ [cid])
  | some cr =>
    if cr.queue.length < cr.qcap then
      (updateA acc.1 cid { cr with queue := cr.queue ++ [p] }, acc.2 ++ [cid])
    else
      (updateA acc.1 cid { cr with closed := true, closeCount := cr.closeCount + 1 },
       acc.2)

/-- Model of hub.go broadcastToChannel: look up the channel in its owning
bucket and run the delivery loop over its members.  The member list is
rewritten to the kept members; note the channel entry is updated but never
deleted, even when every member was evicted. -/
def broadcastToChannel (s : HubState) (ch p : String) : HubState × List PubEvent :=
  let i := getBucket ch
  let m := bucketMapAt s i
  match lookupA m ch with
  | none => (s, [])
  | some members =>
    let res := members.foldl (broadcastStep p) (s.clients, [])
    ({ buckets := s.buckets.set i (updateA m ch res.2), clients := res.1 }, [])

/-- One iteration of the hub Run loop. -/
def hubStep (s : HubState) : HubOp → HubState × List PubEvent
  | .register cid ch uid uname qcap => registerClient s cid ch uid uname qcap
  | .unregister cid => unregisterClient s cid
  | .broadcast ch p => broadcastToChannel s ch p

/-- Initial hub state (NewHub): 32 empty buckets, no clients. -/
def initHub : HubState :=
  { buckets := List.replicate numBuckets [], clients := [] }

/-- Run a sequence of hub operations, collecting the published events. -/
def runOps (s : HubState) : List HubOp → HubState × List PubEvent
  | [] => (s, [])
  | op :: rest =>
    let r := hubStep s op
    let r2 := runOps r.1 rest
    (r2.1, r.2 ++ r2.2)

/-- An operation is legal when a register request carries a fresh client
handle: ServeWS constructs a new Client for every accepted connection and
registers it exactly once. -/
def legalOp (s : HubState) : HubOp → Bool
  | .register cid _ _ _ _ => (lookupA s.clients cid).isNone
  | _ => true

/-- Legality of a whole operation sequence from a given state. -/
def legalFrom (s : HubState) : List HubOp → Bool
  | [] => true
  | op :: rest => legalOp s op && legalFrom (hubStep s op).1 rest

/-- Whether an operation is an unregister request. -/
def HubOp.isUnregisterOp : HubOp → Bool
  | .unregister _ => true
  | _ => false

/-! ## Registry well-formedness

The invariant maintained by the hub: every member of a channel set has a
record in the store, with matching channel id and an open queue; channel
entries live in the bucket selected by getBucket; member lists and bucket
keys have no duplicates; and the ghost close counter agrees with the
closed flag. -/

/-- A member of channel ch must have a record with that channel id and an
open (not closed) queue. -/
def clientOk (s : HubState) (ch : String) (cid : ClientId) : Bool :=
  match lookupA s.clients cid with
  | some cr => cr.channelId == ch && !cr.closed
  | none => false

/-- A bucket entry is well formed: right bucket, duplicate-free member
list, all members well formed. -/
def entryOk (s : HubState) (i : Nat) (e : String × List ClientId) : Bool :=
  (getBucket e.1 == i) && decide e.2.Nodup && e.2.all (clientOk s e.1)

/-- Whether a client queue has spare capacity in a given store, the
condition under which the non-blocking send of broadcastToChannel
succeeds (unknown handles count as kept, a case that never arises in a
well-formed registry). -/
def spareCap (store : List (ClientId × ClientRec)) (cid : ClientId) : Bool :=
  match lookupA store cid with
  | some cr => decide (cr.queue.length < cr.qcap)
  | none => true

/-- Effect of one delivery attempt on a client record: enqueue on spare
capacity, otherwise close and count the close. -/
def applyDelivery (p : String) (cr : ClientRec) : ClientRec :=
  if cr.queue.length < cr.qcap then { cr with queue := cr.queue ++ [p] }
  else { cr with closed := true, closeCount := cr.closeCount + 1 }

/-- Registry well-formedness. -/
def wf (s : HubState) : Bool :=
  (s.buckets.length == numBuckets) &&
  decide (s.clients.map Prod.fst).Nodup &&
  ((List.range numBuckets).all (fun i =>
      decide ((bucketMapAt s i).map Prod.fst).Nodup &&
      (bucketMapAt s i).all (entryOk s i))) &&
  (s.clients.all (fun e => e.2.closeCount == (if e.2.closed then 1 else 0)))

/-! ## Characterization of the broadcast delivery loop -/

/-- JSON value, the model of an interface-typed decoded JSON document. -/
inductive Json where
  | null
  | bool (b : Bool)
  | num (n : Int)
  | str (s : String)
  | arr (elems : List Json)
  | obj (fields : List (String × Json))

/-- Model of models.Event: the envelope carried over the transport. The
field named type in Go is named etype here. -/
structure Event where
  etype : String
  channelId : String
  timestamp : Int
  data : Json

/-- Capacity of the hub Broadcast ingress channel: NewHub creates it with
make(chan *models.BroadcastMessage), an unbuffered channel. -/
def broadcastChanCap : Nat := 0

/-- Model of one iteration of the SubscribeToEvents message loop
(pubsub.go): decode the raw payload into an envelope (none models a
json.Unmarshal failure, which is logged and skipped); on success build a
BroadcastMessage from the decoded channel id and the raw payload and hand
it to the hub over the unbuffered Broadcast channel — a blocking send —
after which the Run loop processes it with broadcastToChannel. -/
def subscribeHandleMessage (s : HubState) (payload : String)
    (decoded : Option Event) : HubState × List PubEvent :=
  match decoded with
  | none => (s, [])
  | some ev => hubStep s (HubOp.broadcast ev.channelId payload)

/-- An event published to the external transport: the topic and the
envelope (publishEvent in redis/client.go serializes the envelope and
publishes it to topic channel:<channelId>). -/
structure Published where
  topic : String
  event : Event

/-- Model of publishEvent (redis/client.go). -/
def publishEvent (channelId : String) (ev : Event) : Published :=
  { topic := "channel:" ++ channelId, event := ev }

/-- Model of PublishTypingStart as declared by the hub RedisPublisher
interface and called by handleClientMessage: three string arguments, no
thread id; the envelope data carries userId and userName only. -/
def publishTypingStart (channelId userId userName : String) (now : Int) :
    Published :=
  publishEvent channelId
    { etype := "typing:start", channelId := channelId, timestamp := now,
      data := Json.obj [("userId", Json.str userId),
                        ("userName", Json.str userName)] }

/-- Model of PublishTypingStop as declared by the hub RedisPublisher
interface and called by handleClientMessage. -/
def publishTypingStop (channelId userId : String) (now : Int) : Published :=
  publishEvent channelId
    { etype := "typing:stop", channelId := channelId, timestamp := now,
      data := Json.obj [("userId", Json.str userId)] }

/-- Model of the threadId-aware PublishTypingStart found in
internal/redis/client.go: it appends threadId to the data object when the
pointer is non-nil and the string nonempty. This variant does not match
the RedisPublisher interface used by the hub and is unreachable from
handleClientMessage. -/
def publishTypingStartThread (channelId userId userName : String)
    (threadId : Option String) (now : Int) : Published :=
  publishEvent channelId
    { etype := "typing:start", channelId := channelId, timestamp := now,
      data := Json.obj
        ([("userId", Json.str userId), ("userName", Json.str userName)] ++
          match threadId with
          | some t => if t ≠ "" then [("threadId", Json.str t)] else []
          | none => []) }

/-- Identity of one connection as used by handleClientMessage. -/
structure ClientIdent where
  channelId : String
  userId : String
  userName : String

/-- Model of handleClientMessage (client.go): the inbound bytes are parsed
as a JSON object (none models a json.Unmarshal failure, which is logged
and discarded); the type field must be a string; typing:start and
typing:stop are republished via the publisher with the connection channel
id, user id and user name; other types are logged and ignored.  The data
object of the inbound message is never read. -/
def handleClientMessage (c : ClientIdent) (now : Int)
    (msg : Option (List (String × Json))) : List Published :=
  match msg with
  | none => []
  | some fields =>
    match lookupA fields "type" with
    | some (Json.str etype) =>
        if etype = "typing:start" then
          [publishTypingStart c.channelId c.userId c.userName now]
        else if etype = "typing:stop" then
          [publishTypingStop c.channelId c.userId now]
        else []
    | _ => []

/-- Fields of a JSON object (empty for other values). -/
def objFields : Json → List (String × Json)
  | Json.obj fields => fields
  | _ => []

/-! ## Claim theorems for the hub -/

/-- Concrete state for the broadcast witness: two clients under channel
c1, client 1 with one slot spare, client 2 with a full queue. -/
def broadcastDemoState : HubState :=
  (runOps initHub [HubOp.register 1 "c1" "u1" "Ann" 2,
    HubOp.register 2 "c1" "u2" "Bob" 1, HubOp.broadcast "c1" "m1"]).1

/-- No channel entry maps to an empty member set. -/
def noEmptyChannels (s : HubState) : Bool :=
  s.buckets.all (fun m => m.all (fun e => !e.2.isEmpty))

/-- Model of the Bearer strip in ValidateToken: strings.TrimPrefix removes
the prefix only when present (character level, which coincides with the
Go byte-level operation for this ASCII prefix). -/
def trimBearer (s : String) : String :=
  if "Bearer ".data.isPrefixOf s.data then String.mk (s.data.drop 7) else s

/-- One JWK entry as decoded from the JWKS document. -/
structure JWK where
  kid : String
  kty : String
  use : String
  n : String
  e : String
  alg : String
  deriving DecidableEq, Repr

/-- The JWKS document. -/
structure JWKS where
  keys : List JWK
  deriving DecidableEq, Repr

/-- Value of one base64url character (RFC 4648 URL alphabet, no padding). -/
def b64urlDecodeChar (c : Char) : Option Nat :=
  if 'A' ≤ c ∧ c ≤ 'Z' then some (c.toNat - 65)
  else if 'a' ≤ c ∧ c ≤ 'z' then some (c.toNat - 97 + 26)
  else if '0' ≤ c ∧ c ≤ '9' then some (c.toNat - 48 + 52)
  else if c = '-' then some 62
  else if c = '_' then some 63
  else none

/-- Regroup 6-bit values into bytes as base64.RawURLEncoding.DecodeString
does: each block of four characters gives three bytes; a final block of
two or three characters gives one or two bytes; a final block of one
character is corrupt input; trailing bits are ignored (the non-strict Go
default). -/
def b64Groups : List Nat → Option (List Nat)
  | [] => some []
  | [_] => none
  | [a, b] => some [a * 4 + b / 16]
  | [a, b, c] => some [a * 4 + b / 16, b % 16 * 16 + c / 4]
  | a :: b :: c :: d :: rest =>
      match b64Groups rest with
      | none => none
      | some tail =>
          some ([a * 4 + b / 16, b % 16 * 16 + c / 4, c % 4 * 64 + d] ++ tail)

/-- Model of base64.RawURLEncoding.DecodeString: newline and carriage
return are skipped, every other character must be in the URL alphabet,
and the sextets are regrouped into bytes. -/
def base64urlDecode (s : String) : Option (List Nat) :=
  match (s.data.filter (fun c => c != '\n' && c != '\r')).mapM b64urlDecodeChar with
  | none => none
  | some sextets => b64Groups sextets

/-- RSA public key as built by jwkToPublicKey: arbitrary-precision modulus
and a Go int exponent. -/
structure RSAPublicKey where
  n : Nat
  e : Int
  deriving DecidableEq, Repr

/-- big.Int SetBytes: big-endian interpretation of a byte sequence. -/
def bigIntSetBytes (bytes : List Nat) : Nat :=
  bytes.foldl (fun a b => a * 256 + b) 0

/-- The exponent loop of jwkToPublicKey: e = e shifted left by 8 plus the
next byte, over a 64-bit signed Go int, so the accumulator wraps modulo
2 to the 64; an empty byte sequence leaves the initial 0. -/
def goIntFromBytes (bytes : List Nat) : Int :=
  let u : Nat := bytes.foldl (fun a b => (a * 256 + b) % 2 ^ 64) 0
  if u < 2 ^ 63 then (u : Int) else (u : Int) - 2 ^ 64

/-- Model of jwkToPublicKey: decode the base64url modulus and exponent; a
decode failure is an error; otherwise the key is built — with no length
check on the exponent bytes. -/
def jwkToPublicKey (jwk : JWK) : Except String RSAPublicKey :=
  match base64urlDecode jwk.n with
  | none => Except.error "failed to decode modulus"
  | some nBytes =>
    match base64urlDecode jwk.e with
    | none => Except.error "failed to decode exponent"
    | some eBytes =>
        Except.ok { n := bigIntSetBytes nBytes, e := goIntFromBytes eBytes }

/-- State of the auth package: configured issuer, current key set (none
before initialization), derived-key cache. -/
structure AuthState where
  kindeIssuer : String
  kindeJWKS : Option JWKS
  jwksCache : List (String × RSAPublicKey)
  deriving DecidableEq, Repr

/-- Model of getPublicKey: consult the derived-key cache; on a miss search
the current key set for the kid, derive the key and cache it; an
uninitialized key set or an absent kid is an error. -/
def getPublicKey (st : AuthState) (kid : String) :
    Except String RSAPublicKey × AuthState :=
  match lookupA st.jwksCache kid with
  | some key => (Except.ok key, st)
  | none =>
    match st.kindeJWKS with
    | none => (Except.error "JWKS not initialized", st)
    | some jwks =>
      match jwks.keys.find? (fun jwk => jwk.kid == kid) with
      | some jwk =>
          match jwkToPublicKey jwk with
          | Except.error msg => (Except.error msg, st)
          | Except.ok key =>
              (Except.ok key,
               { st with jwksCache := updateA st.jwksCache kid key })
      | none =>
          (Except.error ("key with kid " ++ kid ++ " not found in JWKS"), st)

/-- Signing method of a parsed token, as inspected by the keyfunc type
assertion on jwt.SigningMethodRSA. -/
inductive SigMethod where
  | rsa (name : String)
  | other (name : String)
  deriving DecidableEq, Repr

/-- Whether the method is RSA-family. -/
def SigMethod.isRSA : SigMethod → Bool
  | .rsa _ => true
  | .other _ => false

/-- Claims of a token (KindeClaims): the registered claims read by the
validator — including the not-before claim validated by the library —
plus the Kinde profile fields. -/
structure TokenClaims where
  issuer : String
  subject : String
  expiresAt : Option Int
  notBefore : Option Int
  givenName : String
  familyName : String
  email : String
  permissions : List String
  deriving DecidableEq, Repr

/-- A structurally decoded JWT: header method and kid, and the claims. -/
structure ParsedToken where
  method : SigMethod
  kid : Option String
  claims : TokenClaims
  deriving DecidableEq, Repr

/-- Failure modes of ValidateToken. -/
inductive AuthError where
  | emptyToken
  | malformedToken
  | unsupportedAlg
  | kidMissing
  | keyLookup (msg : String)
  | invalidSignature
  | tokenExpired
  | tokenNotYetValid
  | issuerMismatch (expected got : String)
  deriving DecidableEq, Repr

/-- The post-parse checks of ValidateToken itself: issuer equality against
the configured issuer, then the redundant expiry check ExpiresAt before
now. -/
def checkClaims (kindeIssuer : String) (now : Int) (claims : TokenClaims) :
    Except AuthError TokenClaims :=
  if claims.issuer ≠ kindeIssuer then
    Except.error (AuthError.issuerMismatch kindeIssuer claims.issuer)
  else
    match claims.expiresAt with
    | some e =>
        if e < now then Except.error AuthError.tokenExpired
        else Except.ok claims
    | none => Except.ok claims

/-- The not-before validation performed by the golang-jwt v5 registered
claims validator right after its expiry validation: an nbf claim, when
present, rejects the token while now is strictly before it; a surviving
token then goes through the post-parse checks of ValidateToken itself
(checkClaims). -/
def validateNbfAndClaims (kindeIssuer : String) (now : Int)
    (tok : ParsedToken) : Except AuthError TokenClaims :=
  match tok.claims.notBefore with
  | some nb =>
      if now < nb then Except.error AuthError.tokenNotYetValid
      else checkClaims kindeIssuer now tok.claims
  | none => checkClaims kindeIssuer now tok.claims

/-- Model of ValidateToken together with the relevant behavior of the
golang-jwt v5 parser: strip the optional Bearer prefix and reject an
empty remainder; parse the token (none is a malformed token); the keyfunc
rejects a non-RSA method and a missing kid and looks up the public key
via getPublicKey; the library verifies the signature and validates the
registered claims — the exp claim, when present, must be strictly in the
future, and the nbf claim, when present, must not be in the future;
ValidateToken then checks the issuer and re-checks expiry and returns the
decoded claims. -/
def validateToken (parse : String → Option ParsedToken)
    (verify : RSAPublicKey → ParsedToken → Bool) (now : Int)
    (st : AuthState) (tokenString : String) :
    Except AuthError TokenClaims × AuthState :=
  let t := trimBearer tokenString
  if t = "" then (Except.error AuthError.emptyToken, st)
  else
    match parse t with
    | none => (Except.error AuthError.malformedToken, st)
    | some tok =>
      if tok.method.isRSA = false then
        (Except.error AuthError.unsupportedAlg, st)
      else
        match tok.kid with
        | none => (Except.error AuthError.kidMissing, st)
        | some kid =>
          match getPublicKey st kid with
          | (Except.error msg, st1) =>
              (Except.error (AuthError.keyLookup msg), st1)
          | (Except.ok key, st1) =>
            if verify key tok = false then
              (Except.error AuthError.invalidSignature, st1)
            else
              match tok.claims.expiresAt with
              | some e =>
                  if now < e then
                    (validateNbfAndClaims st.kindeIssuer now tok, st1)
                  else (Except.error AuthError.tokenExpired, st1)
              | none => (validateNbfAndClaims st.kindeIssuer now tok, st1)

/-- Outcome of the key-set fetch performed by refreshJWKS: a transport
error, or an HTTP response with a status code and the result of decoding
the body (none is a decode failure). -/
inductive FetchResult where
  | netError (msg : String)
  | response (status : Nat) (body : Option JWKS)
  deriving DecidableEq, Repr

/-- Model of refreshJWKS: a transport error, a non-OK status or a body
decode failure return before any mutation, reporting the failure; on
success the key set is swapped as a whole and the derived-key cache is
cleared. -/
def refreshJWKS (st : AuthState) (r : FetchResult) :
    AuthState × Option String :=
  match r with
  | .netError msg => (st, some ("failed to fetch JWKS: " ++ msg))
  | .response status body =>
    if status ≠ 200 then (st, some "JWKS endpoint returned non-OK status")
    else
      match body with
      | none => (st, some "failed to decode JWKS")
      | some jwks =>
          ({ st with kindeJWKS := some jwks, jwksCache := [] }, none)

/-- Whether an Except value is a success. -/
def isOkE {ε α : Type} : Except ε α → Bool
  | Except.ok _ => true
  | Except.error _ => false

instance exceptDecEq {ε α : Type} [DecidableEq ε] [DecidableEq α] :
    DecidableEq (Except ε α) := fun a b =>
  match a, b with
  | Except.ok x, Except.ok y =>
      if h : x = y then isTrue (by rw [h])
      else isFalse (by intro hc; cases hc; exact h rfl)
  | Except.error x, Except.error y =>
      if h : x = y then isTrue (by rw [h])
      else isFalse (by intro hc; cases hc; exact h rfl)
  | Except.ok _, Except.error _ => isFalse (by intro hc; cases hc)
  | Except.error _, Except.ok _ => isFalse (by intro hc; cases hc)

/-! ## Inversion lemmas for the validator -/

/-- Concrete token for the validator witness. -/
def tok0 : ParsedToken :=
  { method := SigMethod.rsa "RS256", kid := some "kid1",
    claims := { issuer := "https://issuer.example", subject := "u1",
                expiresAt := some 2000000000, notBefore := some 1600000000,
                givenName := "Ann", familyName := "A",
                email := "ann@example.com", permissions := [] } }

/-- Concrete auth state for the validator witness. -/
def st0 : AuthState :=
  { kindeIssuer := "https://issuer.example",
    kindeJWKS := some ⟨[⟨"kid1", "RSA", "sig", "AQ", "AQAB", "RS256"⟩]⟩,
    jwksCache := [] }

/-- Concrete parse oracle for the validator witness. -/
def parse0 : String → Option ParsedToken :=
  fun s => if s = "tok" then some tok0 else none

/-- Concrete verify oracle for the validator witness. -/
def verify0 : RSAPublicKey → ParsedToken → Bool := fun _ _ => true

/-- Inbound request as seen by ServeWS: the token query parameter, the
Authorization header (empty string models absence, as Go Get does), the
channelId query parameter, and whether the protocol upgrade succeeds. -/
structure WsRequest where
  queryToken : String
  authHeader : String
  queryChannelId : String
  upgradeOk : Bool
  deriving DecidableEq, Repr

/-- Client constructed by ServeWS on success: channel id from the query,
user id from the claims subject, user name from the claims given name,
and a send queue of capacity 256. -/
structure WsClient where
  channelId : String
  userId : String
  userName : String
  sendCap : Nat
  deriving DecidableEq, Repr

/-- Outcome of ServeWS: the HTTP error status when rejected before the
upgrade, whether the upgrade was attempted, the registered client if any,
and whether the two pumps were started. -/
structure WsOutcome where
  httpStatus : Option Nat
  upgraded : Bool
  registered : Option WsClient
  pumpsStarted : Bool
  deriving DecidableEq, Repr

/-- Token selection of ServeWS: the token query parameter, falling back to
the Authorization header when the query parameter is empty. -/
def selectToken (r : WsRequest) : String :=
  if r.queryToken ≠ "" then r.queryToken else r.authHeader

/-- Model of ServeWS (message.go): missing token rejects with 401 before
any upgrade; a token failing validation rejects with 401 before any
upgrade; a missing channelId rejects with 400 before any upgrade; only
then is the upgrade attempted — on upgrade failure the handler returns
without registering; on success the client is constructed with a 256-slot
send queue, registered with the hub, and both pumps are started.
validate is auth.ValidateToken closed over the package state. -/
def serveWS (validate : String → Except AuthError TokenClaims)
    (r : WsRequest) : WsOutcome :=
  let token := selectToken r
  if token = "" then
    { httpStatus := some 401, upgraded := false,
      registered := none, pumpsStarted := false }
  else
    match validate token with
    | Except.error _ =>
        { httpStatus := some 401, upgraded := false,
          registered := none, pumpsStarted := false }
    | Except.ok claims =>
        if r.queryChannelId = "" then
          { httpStatus := some 400, upgraded := false,
            registered := none, pumpsStarted := false }
        else if r.upgradeOk = false then
          { httpStatus := none, upgraded := true,
            registered := none, pumpsStarted := false }
        else
          { httpStatus := none, upgraded := true,
            registered := some ⟨r.queryChannelId, claims.subject,
              claims.givenName, 256⟩,
            pumpsStarted := true }

/-! ## Theorems -/

@[simp] theorem lookupA_nil {κ α : Type} [DecidableEq κ] (key : κ) :
    lookupA ([] : List (κ × α)) key = none := rfl

theorem lookupA_updateA_self {κ α : Type} [DecidableEq κ]
    (l : List (κ × α)) (key : κ) (val : α) :
    lookupA (updateA l key val) key = some val := by
  induction l with
  | nil => simp [lookupA, updateA]
  | cons p rest ih =>
      obtain ⟨k, v⟩ := p
      by_cases h : k = key <;> simp [lookupA, updateA, h, ih]

theorem lookupA_updateA_ne {κ α : Type} [DecidableEq κ]
    (l : List (κ × α)) (key key' : κ) (val : α) (h : key ≠ key') :
    lookupA (updateA l key val) key' = lookupA l key' := by
  induction l with
  | nil => simp [lookupA, updateA, h]
  | cons p rest ih =>
      obtain ⟨k, v⟩ := p
      by_cases hk : k = key
      · subst hk
        simp [lookupA, updateA, h]
      · simp only [updateA, if_neg hk, lookupA]
        by_cases hk' : k = key' <;> simp [hk', ih]

theorem lookupA_eraseA_ne {κ α : Type} [DecidableEq κ]
    (l : List (κ × α)) (key key' : κ) (h : key ≠ key') :
    lookupA (eraseA l key) key' = lookupA l key' := by
  induction l with
  | nil => simp [eraseA]
  | cons p rest ih =>
      obtain ⟨k, v⟩ := p
      by_cases hk : k = key
      · subst hk
        simp [eraseA, lookupA, h]
      · simp only [eraseA, if_neg hk, lookupA]
        by_cases hk' : k = key' <;> simp [hk', ih]

theorem lookupA_mem {κ α : Type} [DecidableEq κ]
    {l : List (κ × α)} {key : κ} {val : α} (h : lookupA l key = some val) :
    (key, val) ∈ l := by
  induction l with
  | nil => simp [lookupA] at h
  | cons p rest ih =>
      obtain ⟨k, v⟩ := p
      by_cases hk : k = key
      · subst hk
        simp [lookupA] at h
        simp [h]
      · simp only [lookupA, if_neg hk] at h
        exact List.mem_cons_of_mem _ (ih h)

theorem lookupA_eq_none {κ α : Type} [DecidableEq κ]
    {l : List (κ × α)} {key : κ} :
    lookupA l key = none ↔ key ∉ l.map Prod.fst := by
  induction l with
  | nil => simp [lookupA]
  | cons p rest ih =>
      obtain ⟨k, v⟩ := p
      by_cases hk : k = key
      · subst hk
        simp [lookupA]
      · simp [lookupA, hk, ih, Ne.symm hk]

theorem lookupA_of_mem_nodup {κ α : Type} [DecidableEq κ]
    {l : List (κ × α)} {key : κ} {val : α}
    (hnd : (l.map Prod.fst).Nodup) (h : (key, val) ∈ l) :
    lookupA l key = some val := by
  induction l with
  | nil => simp at h
  | cons p rest ih =>
      obtain ⟨k, v⟩ := p
      simp only [List.map_cons, List.nodup_cons] at hnd
      rcases List.mem_cons.mp h with heq | hmem
      · cases heq
        simp [lookupA]
      · have hk : k ≠ key := by
          intro hkk
          subst hkk
          exact hnd.1 (List.mem_map_of_mem Prod.fst hmem)
        simp [lookupA, hk, ih hnd.2 hmem]

theorem mem_updateA {κ α : Type} [DecidableEq κ]
    {l : List (κ × α)} {key : κ} {val : α} {e : κ × α}
    (h : e ∈ updateA l key val) : e = (key, val) ∨ e ∈ l := by
  induction l with
  | nil => simp [updateA] at h; simp [h]
  | cons p rest ih =>
      obtain ⟨k, v⟩ := p
      by_cases hk : k = key
      · subst hk
        simp only [updateA, if_pos rfl] at h
        rcases List.mem_cons.mp h with heq | hmem
        · exact Or.inl heq
        · exact Or.inr (List.mem_cons_of_mem _ hmem)
      · simp only [updateA, if_neg hk] at h
        rcases List.mem_cons.mp h with heq | hmem
        · exact Or.inr (heq ▸ List.mem_cons_self _ _)
        · rcases ih hmem with h1 | h1
          · exact Or.inl h1
          · exact Or.inr (List.mem_cons_of_mem _ h1)

theorem keys_updateA {κ α : Type} [DecidableEq κ]
    (l : List (κ × α)) (key : κ) (val : α) :
    (updateA l key val).map Prod.fst =
      if key ∈ l.map Prod.fst then l.map Prod.fst else l.map Prod.fst ++ [key] := by
  induction l with
  | nil => simp [updateA]
  | cons p rest ih =>
      obtain ⟨k, v⟩ := p
      by_cases hk : k = key
      · subst hk
        simp [updateA]
      · simp only [updateA, if_neg hk, List.map_cons, ih]
        by_cases hmem : key ∈ rest.map Prod.fst
        · simp [hmem, Ne.symm hk]
        · simp [hmem, Ne.symm hk]

theorem keys_updateA_nodup {κ α : Type} [DecidableEq κ]
    {l : List (κ × α)} {key : κ} {val : α}
    (hnd : (l.map Prod.fst).Nodup) :
    ((updateA l key val).map Prod.fst).Nodup := by
  rw [keys_updateA]
  by_cases hmem : key ∈ l.map Prod.fst
  · simpa [hmem] using hnd
  · simp only [hmem, if_false]
    exact List.Nodup.append hnd (List.nodup_singleton key)
      (by simpa [List.disjoint_singleton] using hmem)

theorem mem_updateA_nodup {κ α : Type} [DecidableEq κ]
    {l : List (κ × α)} {key : κ} {val : α} {e : κ × α}
    (hnd : (l.map Prod.fst).Nodup) (h : e ∈ updateA l key val) :
    e = (key, val) ∨ (e ∈ l ∧ e.1 ≠ key) := by
  induction l with
  | nil => simp [updateA] at h; simp [h]
  | cons p rest ih =>
      obtain ⟨k, v⟩ := p
      simp only [List.map_cons, List.nodup_cons] at hnd
      by_cases hk : k = key
      · subst hk
        simp only [updateA, if_pos rfl] at h
        rcases List.mem_cons.mp h with heq | hmem
        · exact Or.inl heq
        · refine Or.inr ⟨List.mem_cons_of_mem _ hmem, ?_⟩
          intro hek
          exact hnd.1 (hek ▸ List.mem_map_of_mem Prod.fst hmem)
      · simp only [updateA, if_neg hk] at h
        rcases List.mem_cons.mp h with heq | hmem
        · subst heq
          exact Or.inr ⟨List.mem_cons_self _ _, hk⟩
        · rcases ih hnd.2 hmem with h1 | h1
          · exact Or.inl h1
          · exact Or.inr ⟨List.mem_cons_of_mem _ h1.1, h1.2⟩

theorem mem_eraseA {κ α : Type} [DecidableEq κ]
    {l : List (κ × α)} {key : κ} {e : κ × α}
    (h : e ∈ eraseA l key) : e ∈ l := by
  induction l with
  | nil => simp [eraseA] at h
  | cons p rest ih =>
      obtain ⟨k, v⟩ := p
      by_cases hk : k = key
      · subst hk
        simp only [eraseA, if_pos rfl] at h
        exact List.mem_cons_of_mem _ h
      · simp only [eraseA, if_neg hk] at h
        rcases List.mem_cons.mp h with heq | hmem
        · exact heq ▸ List.mem_cons_self _ _
        · exact List.mem_cons_of_mem _ (ih hmem)

theorem mem_eraseA_nodup {κ α : Type} [DecidableEq κ]
    {l : List (κ × α)} {key : κ} {e : κ × α}
    (hnd : (l.map Prod.fst).Nodup) (h : e ∈ eraseA l key) :
    e ∈ l ∧ e.1 ≠ key := by
  induction l with
  | nil => simp [eraseA] at h
  | cons p rest ih =>
      obtain ⟨k, v⟩ := p
      simp only [List.map_cons, List.nodup_cons] at hnd
      by_cases hk : k = key
      · subst hk
        simp only [eraseA, if_pos rfl] at h
        refine ⟨List.mem_cons_of_mem _ h, ?_⟩
        intro hek
        exact hnd.1 (hek ▸ List.mem_map_of_mem Prod.fst h)
      · simp only [eraseA, if_neg hk] at h
        rcases List.mem_cons.mp h with heq | hmem
        · subst heq
          exact ⟨List.mem_cons_self _ _, hk⟩
        · rcases ih hnd.2 hmem with ⟨h1, h2⟩
          exact ⟨List.mem_cons_of_mem _ h1, h2⟩

theorem keys_eraseA_nodup {κ α : Type} [DecidableEq κ]
    {l : List (κ × α)} {key : κ}
    (hnd : (l.map Prod.fst).Nodup) :
    ((eraseA l key).map Prod.fst).Nodup := by
  induction l with
  | nil => simp [eraseA]
  | cons p rest ih =>
      obtain ⟨k, v⟩ := p
      simp only [List.map_cons, List.nodup_cons] at hnd
      by_cases hk : k = key
      · subst hk
        simp only [eraseA, if_pos rfl]
        exact hnd.2
      · simp only [eraseA, if_neg hk, List.map_cons, List.nodup_cons]
        refine ⟨?_, ih hnd.2⟩
        intro hc
        exact hnd.1 (List.mem_map.mpr
          (by
            rcases List.mem_map.mp hc with ⟨e, he, hke⟩
            exact ⟨e, mem_eraseA he, hke⟩))

theorem getD_set_self {α : Type} (l : List α) (i : Nat) (a d : α)
    (h : i < l.length) : (l.set i a).getD i d = a := by
  induction l generalizing i with
  | nil => simp at h
  | cons x xs ih =>
      cases i with
      | zero => rfl
      | succ j =>
          simp only [List.set, List.getD, List.getElem?_cons_succ]
          exact ih j (by simpa using h)

theorem getD_set_ne {α : Type} (l : List α) (i j : Nat) (a d : α)
    (h : i ≠ j) : (l.set i a).getD j d = l.getD j d := by
  induction l generalizing i j with
  | nil => simp
  | cons x xs ih =>
      cases i with
      | zero =>
          cases j with
          | zero => exact absurd rfl h
          | succ j2 => rfl
      | succ i2 =>
          cases j with
          | zero => rfl
          | succ j2 =>
              simp only [List.set, List.getD, List.getElem?_cons_succ]
              exact ih i2 j2 (fun hc => h (hc ▸ rfl))

/-! ## Bucket selection (hub.go, getBucket)

The hub partitions the registry into `numBuckets` buckets selected by the
32-bit FNV-1a hash of the channel id, reduced modulo the bucket count. -/

theorem broadcast_foldl_spec (p : String) :
    ∀ (members : List ClientId) (store : List (ClientId × ClientRec))
      (k0 : List ClientId), members.Nodup →
    (∀ x, x ∉ members →
        lookupA (members.foldl (broadcastStep p) (store, k0)).1 x
          = lookupA store x) ∧
    (∀ x, x ∈ members →
        lookupA (members.foldl (broadcastStep p) (store, k0)).1 x
          = (lookupA store x).map (applyDelivery p)) ∧
    (members.foldl (broadcastStep p) (store, k0)).2
      = k0 ++ members.filter (spareCap store) := by
  intro members
  induction members with
  | nil =>
      intro store k0 _
      refine ⟨?_, ?_, ?_⟩ <;> simp
  | cons c rest ih =>
      intro store k0 hnd
      simp only [List.nodup_cons] at hnd
      obtain ⟨hc, hrest⟩ := hnd
      rw [List.foldl_cons]
      cases hlk : lookupA store c with
      | none =>
          have hstep : broadcastStep p (store, k0) c = (store, k0 ++ [c]) := by
            simp [broadcastStep, hlk]
          rw [hstep]
          obtain ⟨ih1, ih2, ih3⟩ := ih store (k0 ++ [c]) hrest
          refine ⟨?_, ?_, ?_⟩
          · intro x hx
            exact ih1 x (fun hm => hx (List.mem_cons_of_mem _ hm))
          · intro x hx
            rcases List.mem_cons.mp hx with heq | hmem
            · subst heq
              rw [ih1 x hc, hlk]
              rfl
            · exact ih2 x hmem
          · rw [ih3]
            have hsp : spareCap store c = true := by simp [spareCap, hlk]
            simp [List.filter_cons, hsp, List.append_assoc]
      | some cr =>
          by_cases hq : cr.queue.length < cr.qcap
          · have hstep : broadcastStep p (store, k0) c =
                (updateA store c { cr with queue := cr.queue ++ [p] }, k0 ++ [c]) := by
              simp [broadcastStep, hlk, hq]
            rw [hstep]
            obtain ⟨ih1, ih2, ih3⟩ :=
              ih (updateA store c { cr with queue := cr.queue ++ [p] }) (k0 ++ [c]) hrest
            refine ⟨?_, ?_, ?_⟩
            · intro x hx
              have hxc : c ≠ x := fun he => hx (he ▸ List.mem_cons_self _ _)
              rw [ih1 x (fun hm => hx (List.mem_cons_of_mem _ hm))]
              exact lookupA_updateA_ne _ _ _ _ hxc
            · intro x hx
              rcases List.mem_cons.mp hx with heq | hmem
              · subst heq
                rw [ih1 x hc, lookupA_updateA_self, hlk]
                simp [applyDelivery, hq]
              · have hxc : c ≠ x := fun he => hc (he ▸ hmem)
                rw [ih2 x hmem, lookupA_updateA_ne _ _ _ _ hxc]
            · rw [ih3]
              have hsp : spareCap store c = true := by simp [spareCap, hlk, hq]
              have hfc : rest.filter
                    (spareCap (updateA store c { cr with queue := cr.queue ++ [p] }))
                  = rest.filter (spareCap store) := by
                apply List.filter_congr
                intro x hx
                have hxc : c ≠ x := fun he => hc (he ▸ hx)
                simp [spareCap, lookupA_updateA_ne _ _ _ _ hxc]
              rw [hfc]
              simp [List.filter_cons, hsp, List.append_assoc]
          · have hstep : broadcastStep p (store, k0) c =
                (updateA store c
                  { cr with closed := true, closeCount := cr.closeCount + 1 }, k0) := by
              simp [broadcastStep, hlk, hq]
            rw [hstep]
            obtain ⟨ih1, ih2, ih3⟩ :=
              ih (updateA store c
                { cr with closed := true, closeCount := cr.closeCount + 1 }) k0 hrest
            refine ⟨?_, ?_, ?_⟩
            · intro x hx
              have hxc : c ≠ x := fun he => hx (he ▸ List.mem_cons_self _ _)
              rw [ih1 x (fun hm => hx (List.mem_cons_of_mem _ hm))]
              exact lookupA_updateA_ne _ _ _ _ hxc
            · intro x hx
              rcases List.mem_cons.mp hx with heq | hmem
              · subst heq
                rw [ih1 x hc, lookupA_updateA_self, hlk]
                simp [applyDelivery, hq]
              · have hxc : c ≠ x := fun he => hc (he ▸ hmem)
                rw [ih2 x hmem, lookupA_updateA_ne _ _ _ _ hxc]
            · rw [ih3]
              have hsp : spareCap store c = false := by simp [spareCap, hlk, hq]
              have hfc : rest.filter
                    (spareCap (updateA store c
                      { cr with closed := true, closeCount := cr.closeCount + 1 }))
                  = rest.filter (spareCap store) := by
                apply List.filter_congr
                intro x hx
                have hxc : c ≠ x := fun he => hc (he ▸ hx)
                simp [spareCap, lookupA_updateA_ne _ _ _ _ hxc]
              rw [hfc]
              simp [List.filter_cons, hsp]

/-! ## Extraction lemmas for well-formedness -/

theorem numBuckets_pos : 0 < numBuckets := by decide

theorem getBucket_lt (ch : String) : getBucket ch < numBuckets :=
  Nat.mod_lt _ numBuckets_pos

theorem wf_buckets_length {s : HubState} (h : wf s = true) :
    s.buckets.length = numBuckets := by
  simp only [wf, Bool.and_eq_true, beq_iff_eq] at h
  exact h.1.1.1

theorem wf_clients_keys_nodup {s : HubState} (h : wf s = true) :
    (s.clients.map Prod.fst).Nodup := by
  simp only [wf, Bool.and_eq_true, decide_eq_true_eq] at h
  exact h.1.1.2

theorem wf_bucket_keys_nodup {s : HubState} (h : wf s = true)
    {i : Nat} (hi : i < numBuckets) :
    ((bucketMapAt s i).map Prod.fst).Nodup := by
  simp only [wf, Bool.and_eq_true, List.all_eq_true, decide_eq_true_eq] at h
  exact (h.1.2 i (List.mem_range.mpr hi)).1

theorem wf_entry {s : HubState} (h : wf s = true)
    {i : Nat} (hi : i < numBuckets) {e : String × List ClientId}
    (he : e ∈ bucketMapAt s i) :
    getBucket e.1 = i ∧ e.2.Nodup ∧ ∀ cid ∈ e.2, clientOk s e.1 cid = true := by
  simp only [wf, Bool.and_eq_true, List.all_eq_true, decide_eq_true_eq] at h
  have := (h.1.2 i (List.mem_range.mpr hi)).2 e he
  simp only [entryOk, Bool.and_eq_true, beq_iff_eq, decide_eq_true_eq,
    List.all_eq_true] at this
  exact ⟨this.1.1, this.1.2, this.2⟩

theorem wf_closeCount {s : HubState} (h : wf s = true)
    {e : ClientId × ClientRec} (he : e ∈ s.clients) :
    e.2.closeCount = if e.2.closed then 1 else 0 := by
  simp only [wf, Bool.and_eq_true, List.all_eq_true] at h
  have := h.2 e he
  simpa using this

theorem clientOk_iff {s : HubState} {ch : String} {cid : ClientId} :
    clientOk s ch cid = true ↔
      ∃ cr, clientRec s cid = some cr ∧ cr.channelId = ch ∧ cr.closed = false := by
  unfold clientOk clientRec
  cases lookupA s.clients cid with
  | none => simp
  | some cr => simp [Bool.and_eq_true]

theorem chanEntry_members {s : HubState} (h : wf s = true)
    {ch : String} {ms : List ClientId} (hce : chanEntry s ch = some ms) :
    ms.Nodup ∧
    ∀ cid ∈ ms, ∃ cr, clientRec s cid = some cr ∧
      cr.channelId = ch ∧ cr.closed = false := by
  have hmem : (ch, ms) ∈ bucketMapAt s (getBucket ch) := lookupA_mem hce
  have := wf_entry h (getBucket_lt ch) hmem
  exact ⟨this.2.1, fun cid hcid => clientOk_iff.mp (this.2.2 cid hcid)⟩

theorem wf_closed_not_member {s : HubState} (h : wf s = true)
    {cid : ClientId} {cr : ClientRec} (hcr : clientRec s cid = some cr)
    (hcl : cr.closed = true) (ch : String) : cid ∉ membersOf s ch := by
  intro hmem
  unfold membersOf at hmem
  cases hce : chanEntry s ch with
  | none => rw [hce] at hmem; simp at hmem
  | some ms =>
      rw [hce] at hmem
      simp only [Option.getD_some] at hmem
      obtain ⟨cr2, hcr2, _, hcl2⟩ := (chanEntry_members h hce).2 cid hmem
      rw [hcr] at hcr2
      cases hcr2
      rw [hcl] at hcl2
      exact absurd hcl2 (by decide)

theorem lookupA_eraseA_self {κ α : Type} [DecidableEq κ]
    {l : List (κ × α)} {key : κ} (hnd : (l.map Prod.fst).Nodup) :
    lookupA (eraseA l key) key = none := by
  rw [lookupA_eq_none]
  intro hc
  rcases List.mem_map.mp hc with ⟨e, he, hke⟩
  exact (mem_eraseA_nodup hnd he).2 hke

/-! ## Characterization of the three hub handlers -/

theorem broadcastToChannel_none {s : HubState} {ch : String} (p : String)
    (hce : chanEntry s ch = none) : broadcastToChannel s ch p = (s, []) := by
  unfold chanEntry at hce
  simp [broadcastToChannel, hce]

theorem broadcastToChannel_spec {s : HubState} (h : wf s = true) (ch p : String)
    {ms : List ClientId} (hce : chanEntry s ch = some ms) :
    (broadcastToChannel s ch p).2 = [] ∧
    chanEntry (broadcastToChannel s ch p).1 ch
      = some (ms.filter (spareCap s.clients)) ∧
    (∀ ch2, ch2 ≠ ch →
      chanEntry (broadcastToChannel s ch p).1 ch2 = chanEntry s ch2) ∧
    (∀ x, x ∉ ms →
      clientRec (broadcastToChannel s ch p).1 x = clientRec s x) ∧
    (∀ x, x ∈ ms →
      clientRec (broadcastToChannel s ch p).1 x
        = (clientRec s x).map (applyDelivery p)) := by
  have hms : lookupA (bucketMapAt s (getBucket ch)) ch = some ms := hce
  obtain ⟨f1, f2, f3⟩ :=
    broadcast_foldl_spec p ms s.clients [] (chanEntry_members h hce).1
  have hlen : getBucket ch < s.buckets.length := by
    rw [wf_buckets_length h]; exact getBucket_lt ch
  have hr : broadcastToChannel s ch p =
      ({ buckets := s.buckets.set (getBucket ch)
           (updateA (bucketMapAt s (getBucket ch)) ch
             (ms.foldl (broadcastStep p) (s.clients, [])).2),
         clients := (ms.foldl (broadcastStep p) (s.clients, [])).1 }, []) := by
    simp only [broadcastToChannel]
    rw [hms]
  refine ⟨by rw [hr], ?_, ?_, ?_, ?_⟩
  · rw [hr]
    unfold chanEntry bucketMapAt
    simp only
    rw [getD_set_self _ _ _ _ hlen, lookupA_updateA_self, f3]
    simp
  · intro ch2 hne
    rw [hr]
    unfold chanEntry bucketMapAt
    simp only
    by_cases hb : getBucket ch2 = getBucket ch
    · rw [hb, getD_set_self _ _ _ _ hlen,
        lookupA_updateA_ne _ _ _ _ (fun he => hne he.symm)]
    · rw [getD_set_ne _ _ _ _ _ (fun he => hb he.symm)]
  · intro x hx
    rw [hr]
    unfold clientRec
    simp only
    exact f1 x hx
  · intro x hx
    rw [hr]
    unfold clientRec
    simp only
    exact f2 x hx

theorem registerClient_spec {s : HubState} (h : wf s = true)
    {cid : ClientId} (ch uid uname : String) (qcap : Nat)
    (hfresh : lookupA s.clients cid = none) :
    (registerClient s cid ch uid uname qcap).2
      = [PubEvent.presenceJoin ch uid uname] ∧
    clientRec (registerClient s cid ch uid uname qcap).1 cid
      = some ⟨ch, uid, uname, qcap, [], false, 0⟩ ∧
    (∀ x, x ≠ cid →
      clientRec (registerClient s cid ch uid uname qcap).1 x = clientRec s x) ∧
    chanEntry (registerClient s cid ch uid uname qcap).1 ch
      = some (membersOf s ch ++ [cid]) ∧
    (∀ ch2, ch2 ≠ ch →
      chanEntry (registerClient s cid ch uid uname qcap).1 ch2
        = chanEntry s ch2) := by
  have hlen : getBucket ch < s.buckets.length := by
    rw [wf_buckets_length h]; exact getBucket_lt ch
  have hnotmem : cid ∉ (lookupA (bucketMapAt s (getBucket ch)) ch).getD [] := by
    intro hmem
    cases hce : chanEntry s ch with
    | none =>
        unfold chanEntry at hce
        rw [hce] at hmem
        simp at hmem
    | some ms =>
        have hms : lookupA (bucketMapAt s (getBucket ch)) ch = some ms := hce
        rw [hms] at hmem
        simp only [Option.getD_some] at hmem
        obtain ⟨cr, hcr, _, _⟩ := (chanEntry_members h hce).2 cid hmem
        unfold clientRec at hcr
        rw [hfresh] at hcr
        exact Option.noConfusion hcr
  have hm1 : (if cid ∈ (lookupA (s.buckets.getD (getBucket ch) []) ch).getD []
      then (lookupA (s.buckets.getD (getBucket ch) []) ch).getD []
      else (lookupA (s.buckets.getD (getBucket ch) []) ch).getD [] ++ [cid])
      = membersOf s ch ++ [cid] := by
    have hnotmem2 : cid ∉ (lookupA (s.buckets.getD (getBucket ch) []) ch).getD [] :=
      hnotmem
    rw [if_neg hnotmem2]
    rfl
  refine ⟨rfl, ?_, ?_, ?_, ?_⟩
  · unfold registerClient clientRec
    simp only
    rw [lookupA_updateA_self]
  · intro x hx
    unfold registerClient clientRec
    simp only
    exact lookupA_updateA_ne _ _ _ _ (fun he => hx he.symm)
  · unfold registerClient chanEntry bucketMapAt
    simp only
    rw [getD_set_self _ _ _ _ hlen, lookupA_updateA_self, hm1]
  · intro ch2 hne
    unfold registerClient chanEntry bucketMapAt
    simp only
    by_cases hb : getBucket ch2 = getBucket ch
    · rw [hb, getD_set_self _ _ _ _ hlen,
        lookupA_updateA_ne _ _ _ _ (fun he => hne he.symm)]
    · rw [getD_set_ne _ _ _ _ _ (fun he => hb he.symm)]

theorem unregisterClient_no_record {s : HubState} {cid : ClientId}
    (hnone : clientRec s cid = none) : unregisterClient s cid = (s, []) := by
  unfold clientRec at hnone
  simp only [unregisterClient, hnone]

theorem unregisterClient_not_member {s : HubState} {cid : ClientId}
    {cr : ClientRec} (hcr : clientRec s cid = some cr)
    (hmem : cid ∉ membersOf s cr.channelId) : unregisterClient s cid = (s, []) := by
  unfold clientRec at hcr
  simp only [unregisterClient, hcr]
  cases hce : lookupA (bucketMapAt s (getBucket cr.channelId)) cr.channelId with
  | none => rfl
  | some members =>
      have hnm : cid ∉ members := by
        intro hc
        apply hmem
        unfold membersOf chanEntry
        rw [hce]
        exact hc
      simp [hnm]

theorem unregisterClient_spec {s : HubState} (h : wf s = true)
    {cid : ClientId} {cr : ClientRec} (hcr : clientRec s cid = some cr)
    {ms : List ClientId} (hce : chanEntry s cr.channelId = some ms)
    (hmem : cid ∈ ms) :
    (unregisterClient s cid).2 = [PubEvent.presenceLeave cr.channelId cr.userId] ∧
    clientRec (unregisterClient s cid).1 cid
      = some { cr with closed := true, closeCount := cr.closeCount + 1 } ∧
    (∀ x, x ≠ cid → clientRec (unregisterClient s cid).1 x = clientRec s x) ∧
    chanEntry (unregisterClient s cid).1 cr.channelId
      = (if ms.erase cid = [] then none else some (ms.erase cid)) ∧
    (∀ ch2, ch2 ≠ cr.channelId →
      chanEntry (unregisterClient s cid).1 ch2 = chanEntry s ch2) := by
  have hlen : getBucket cr.channelId < s.buckets.length := by
    rw [wf_buckets_length h]; exact getBucket_lt cr.channelId
  have hms : lookupA (bucketMapAt s (getBucket cr.channelId)) cr.channelId
      = some ms := hce
  have hcr2 : lookupA s.clients cid = some cr := hcr
  have hnd : ((bucketMapAt s (getBucket cr.channelId)).map Prod.fst).Nodup :=
    wf_bucket_keys_nodup h (getBucket_lt cr.channelId)
  have hnd2 : (((s.buckets.getD (getBucket cr.channelId) []) :
      List (String × List ClientId)).map Prod.fst).Nodup := hnd
  have hr : unregisterClient s cid =
      ({ buckets := s.buckets.set (getBucket cr.channelId)
           (if ms.erase cid = []
            then eraseA (bucketMapAt s (getBucket cr.channelId)) cr.channelId
            else updateA (bucketMapAt s (getBucket cr.channelId)) cr.channelId
                   (ms.erase cid)),
         clients := updateA s.clients cid
           { cr with closed := true, closeCount := cr.closeCount + 1 } },
       [PubEvent.presenceLeave cr.channelId cr.userId]) := by
    simp only [unregisterClient, hcr2, hms]
    simp [hmem]
  refine ⟨by rw [hr], ?_, ?_, ?_, ?_⟩
  · rw [hr]
    unfold clientRec
    simp only
    rw [lookupA_updateA_self]
  · intro x hx
    rw [hr]
    unfold clientRec
    simp only
    exact lookupA_updateA_ne _ _ _ _ (fun he => hx he.symm)
  · rw [hr]
    unfold chanEntry bucketMapAt
    simp only
    rw [getD_set_self _ _ _ _ hlen]
    by_cases he : ms.erase cid = []
    · rw [if_pos he, if_pos he, lookupA_eraseA_self hnd2]
    · rw [if_neg he, if_neg he, lookupA_updateA_self]
  · intro ch2 hne
    rw [hr]
    unfold chanEntry bucketMapAt
    simp only
    by_cases hb : getBucket ch2 = getBucket cr.channelId
    · rw [hb, getD_set_self _ _ _ _ hlen]
      by_cases he : ms.erase cid = []
      · rw [if_pos he, lookupA_eraseA_ne _ _ _ (fun heq => hne heq.symm)]
      · rw [if_neg he, lookupA_updateA_ne _ _ _ _ (fun heq => hne heq.symm)]
    · rw [getD_set_ne _ _ _ _ _ (fun heq => hb heq.symm)]

/-! ## Preservation of well-formedness -/

theorem wf_intro {s : HubState}
    (h1 : s.buckets.length = numBuckets)
    (h2 : (s.clients.map Prod.fst).Nodup)
    (h3 : ∀ i, i < numBuckets → ((bucketMapAt s i).map Prod.fst).Nodup ∧
        ∀ e ∈ bucketMapAt s i, getBucket e.1 = i ∧ e.2.Nodup ∧
          ∀ cid ∈ e.2, clientOk s e.1 cid = true)
    (h4 : ∀ e ∈ s.clients, e.2.closeCount = if e.2.closed then 1 else 0) :
    wf s = true := by
  simp only [wf, Bool.and_eq_true, beq_iff_eq, decide_eq_true_eq, List.all_eq_true]
  refine ⟨⟨⟨h1, h2⟩, ?_⟩, ?_⟩
  · intro i hi
    obtain ⟨hk, hent⟩ := h3 i (List.mem_range.mp hi)
    refine ⟨hk, ?_⟩
    intro e he
    obtain ⟨e1, e2, e3⟩ := hent e he
    simp only [entryOk, Bool.and_eq_true, beq_iff_eq, decide_eq_true_eq,
      List.all_eq_true]
    exact ⟨⟨e1, e2⟩, e3⟩
  · intro e he
    simpa using h4 e he

theorem bucketMapAt_set {bs : List (List (String × List ClientId))}
    {cs : List (ClientId × ClientRec)} {i0 : Nat}
    {m1 : List (String × List ClientId)}
    (hlen : i0 < bs.length) (i : Nat) :
    bucketMapAt { buckets := bs.set i0 m1, clients := cs } i
      = if i = i0 then m1 else bs.getD i [] := by
  unfold bucketMapAt
  by_cases hi : i = i0
  · subst hi
    rw [if_pos rfl]
    exact getD_set_self _ _ _ _ hlen
  · rw [if_neg hi]
    exact getD_set_ne _ _ _ _ _ (fun he => hi he.symm)

theorem clientOk_of_same_rec {s2 s : HubState} {ch : String} {x : ClientId}
    (hrec : clientRec s2 x = clientRec s x) (hok : clientOk s ch x = true) :
    clientOk s2 ch x = true := by
  rcases clientOk_iff.mp hok with ⟨cr, hcr, hc1, hc2⟩
  exact clientOk_iff.mpr ⟨cr, by rw [hrec]; exact hcr, hc1, hc2⟩

theorem ok_ne_fresh {s : HubState} {ch : String} {x cid : ClientId}
    (hok : clientOk s ch x = true) (hfresh : lookupA s.clients cid = none) :
    x ≠ cid := by
  rcases clientOk_iff.mp hok with ⟨cr, hcr, _, _⟩
  intro he
  subst he
  unfold clientRec at hcr
  rw [hfresh] at hcr
  exact Option.noConfusion hcr

theorem membersOf_nodup {s : HubState} (h : wf s = true) (ch : String) :
    (membersOf s ch).Nodup := by
  unfold membersOf
  cases hce : chanEntry s ch with
  | none => simp
  | some ms => simpa using (chanEntry_members h hce).1

theorem member_clientOk {s : HubState} (h : wf s = true) {ch : String}
    {x : ClientId} (hx : x ∈ membersOf s ch) : clientOk s ch x = true := by
  unfold membersOf at hx
  cases hce : chanEntry s ch with
  | none => rw [hce] at hx; simp at hx
  | some ms =>
      rw [hce] at hx
      simp only [Option.getD_some] at hx
      exact clientOk_iff.mpr ((chanEntry_members h hce).2 x hx)

theorem fresh_not_member {s : HubState} (h : wf s = true) {cid : ClientId}
    (hfresh : lookupA s.clients cid = none) (ch : String) :
    cid ∉ membersOf s ch := by
  intro hmem
  exact ok_ne_fresh (member_clientOk h hmem) hfresh rfl

theorem member_other_channel_ne {s : HubState} (h : wf s = true)
    {i : Nat} (hi : i < numBuckets) {e : String × List ClientId}
    (he : e ∈ bucketMapAt s i) {x : ClientId} (hx : x ∈ e.2)
    {ch : String} (hne : e.1 ≠ ch) {ms : List ClientId}
    (hce : chanEntry s ch = some ms) : x ∉ ms := by
  intro hxms
  obtain ⟨cr1, hcr1, hch1, _⟩ := (chanEntry_members h hce).2 x hxms
  rcases clientOk_iff.mp ((wf_entry h hi he).2.2 x hx) with ⟨cr2, hcr2, hch2, _⟩
  rw [hcr1] at hcr2
  cases hcr2
  exact hne (hch2.symm.trans hch1)

theorem member_ne_of_channel_ne {s : HubState} (h : wf s = true)
    {i : Nat} (hi : i < numBuckets) {e : String × List ClientId}
    (he : e ∈ bucketMapAt s i) {x : ClientId} (hx : x ∈ e.2)
    {cid : ClientId} {cr : ClientRec} (hcr : clientRec s cid = some cr)
    (hne : e.1 ≠ cr.channelId) : x ≠ cid := by
  intro hxe
  subst hxe
  rcases clientOk_iff.mp ((wf_entry h hi he).2.2 x hx) with ⟨cr2, hcr2, hch2, _⟩
  rw [hcr] at hcr2
  cases hcr2
  exact hne hch2.symm

theorem broadcast_foldl_keys_nodup (p : String) :
    ∀ (members : List ClientId) (store : List (ClientId × ClientRec))
      (k0 : List ClientId), (store.map Prod.fst).Nodup →
      ((members.foldl (broadcastStep p) (store, k0)).1.map Prod.fst).Nodup := by
  intro members
  induction members with
  | nil => intro store k0 h; simpa using h
  | cons c rest ih =>
      intro store k0 h
      rw [List.foldl_cons]
      cases hlk : lookupA store c with
      | none =>
          rw [show broadcastStep p (store, k0) c = (store, k0 ++ [c]) from by
            simp [broadcastStep, hlk]]
          exact ih _ _ h
      | some cr =>
          by_cases hq : cr.queue.length < cr.qcap
          · rw [show broadcastStep p (store, k0) c =
                (updateA store c { cr with queue := cr.queue ++ [p] }, k0 ++ [c])
              from by simp [broadcastStep, hlk, hq]]
            exact ih _ _ (keys_updateA_nodup h)
          · rw [show broadcastStep p (store, k0) c =
                (updateA store c
                  { cr with closed := true, closeCount := cr.closeCount + 1 }, k0)
              from by simp [broadcastStep, hlk, hq]]
            exact ih _ _ (keys_updateA_nodup h)

theorem wf_register {s : HubState} (h : wf s = true) {cid : ClientId}
    (ch uid uname : String) (qcap : Nat)
    (hfresh : lookupA s.clients cid = none) :
    wf (registerClient s cid ch uid uname qcap).1 = true := by
  have hlen0 : getBucket ch < s.buckets.length := by
    rw [wf_buckets_length h]; exact getBucket_lt ch
  have hnotmem : cid ∉ (lookupA (bucketMapAt s (getBucket ch)) ch).getD [] :=
    fresh_not_member h hfresh ch
  have hreg : (registerClient s cid ch uid uname qcap).1 =
      { buckets := s.buckets.set (getBucket ch)
          (updateA (bucketMapAt s (getBucket ch)) ch (membersOf s ch ++ [cid])),
        clients := updateA s.clients cid ⟨ch, uid, uname, qcap, [], false, 0⟩ } := by
    simp only [registerClient]
    rw [if_neg hnotmem]
    rfl
  rw [hreg]
  apply wf_intro
  · show (s.buckets.set _ _).length = numBuckets
    rw [List.length_set]
    exact wf_buckets_length h
  · exact keys_updateA_nodup (wf_clients_keys_nodup h)
  · intro i hi
    rw [bucketMapAt_set hlen0 i]
    by_cases hii : i = getBucket ch
    · rw [if_pos hii]
      subst hii
      constructor
      · exact keys_updateA_nodup (wf_bucket_keys_nodup h hi)
      · intro e he
        rcases mem_updateA_nodup (wf_bucket_keys_nodup h hi) he with heq | ⟨hmem, hne⟩
        · subst heq
          refine ⟨rfl, ?_, ?_⟩
          · exact List.Nodup.append (membersOf_nodup h ch)
              (List.nodup_singleton cid)
              (by simpa [List.disjoint_singleton] using fresh_not_member h hfresh ch)
          · intro x hx
            rcases List.mem_append.mp hx with hx1 | hx2
            · have hok := member_clientOk h hx1
              have hxc : x ≠ cid := ok_ne_fresh hok hfresh
              refine clientOk_of_same_rec ?_ hok
              show lookupA (updateA s.clients cid _) x = lookupA s.clients x
              exact lookupA_updateA_ne _ _ _ _ (fun he2 => hxc he2.symm)
            · have hx2 : x = cid := by simpa using hx2
              subst hx2
              refine clientOk_iff.mpr ⟨⟨ch, uid, uname, qcap, [], false, 0⟩, ?_, rfl, rfl⟩
              show lookupA (updateA s.clients x _) x = _
              rw [lookupA_updateA_self]
        · obtain ⟨he1, he2, he3⟩ := wf_entry h hi hmem
          refine ⟨he1, he2, ?_⟩
          intro x hx
          have hok := he3 x hx
          have hxc : x ≠ cid := ok_ne_fresh hok hfresh
          refine clientOk_of_same_rec ?_ hok
          show lookupA (updateA s.clients cid _) x = lookupA s.clients x
          exact lookupA_updateA_ne _ _ _ _ (fun he4 => hxc he4.symm)
    · rw [if_neg hii]
      have hbm : (s.buckets.getD i [] : List (String × List ClientId))
          = bucketMapAt s i := rfl
      rw [hbm]
      refine ⟨wf_bucket_keys_nodup h hi, ?_⟩
      intro e he
      obtain ⟨he1, he2, he3⟩ := wf_entry h hi he
      refine ⟨he1, he2, ?_⟩
      intro x hx
      have hok := he3 x hx
      have hxc : x ≠ cid := ok_ne_fresh hok hfresh
      refine clientOk_of_same_rec ?_ hok
      show lookupA (updateA s.clients cid _) x = lookupA s.clients x
      exact lookupA_updateA_ne _ _ _ _ (fun he4 => hxc he4.symm)
  · intro e he
    rcases mem_updateA he with heq | hmem
    · subst heq
      rfl
    · exact wf_closeCount h hmem

theorem wf_unregister {s : HubState} (h : wf s = true) (cid : ClientId) :
    wf (unregisterClient s cid).1 = true := by
  cases hcr : clientRec s cid with
  | none => rw [unregisterClient_no_record hcr]; exact h
  | some cr =>
      by_cases hmem : cid ∈ membersOf s cr.channelId
      · cases hce : chanEntry s cr.channelId with
        | none =>
            exfalso
            unfold membersOf at hmem
            rw [hce] at hmem
            simp at hmem
        | some ms =>
            have hmem2 : cid ∈ ms := by
              unfold membersOf at hmem
              rw [hce] at hmem
              simpa using hmem
            have hlen0 : getBucket cr.channelId < s.buckets.length := by
              rw [wf_buckets_length h]; exact getBucket_lt cr.channelId
            have hms : lookupA (bucketMapAt s (getBucket cr.channelId)) cr.channelId
                = some ms := hce
            have hcr2 : lookupA s.clients cid = some cr := hcr
            have hr : (unregisterClient s cid).1 =
                { buckets := s.buckets.set (getBucket cr.channelId)
                    (if ms.erase cid = []
                     then eraseA (bucketMapAt s (getBucket cr.channelId)) cr.channelId
                     else updateA (bucketMapAt s (getBucket cr.channelId))
                            cr.channelId (ms.erase cid)),
                  clients := updateA s.clients cid
                    { cr with closed := true, closeCount := cr.closeCount + 1 } } := by
              simp only [unregisterClient, hcr2, hms]
              simp [hmem2]
            have hclosed : cr.closed = false := by
              obtain ⟨cr2, hcr3, _, hcl⟩ := (chanEntry_members h hce).2 cid hmem2
              rw [hcr] at hcr3
              cases hcr3
              exact hcl
            have hcount : cr.closeCount = 0 := by
              have := wf_closeCount h (lookupA_mem hcr2)
              simpa [hclosed] using this
            rw [hr]
            apply wf_intro
            · show (s.buckets.set _ _).length = numBuckets
              rw [List.length_set]
              exact wf_buckets_length h
            · exact keys_updateA_nodup (wf_clients_keys_nodup h)
            · intro i hi
              rw [bucketMapAt_set hlen0 i]
              by_cases hii : i = getBucket cr.channelId
              · rw [if_pos hii]
                subst hii
                have hknd := wf_bucket_keys_nodup h hi
                by_cases herase : ms.erase cid = []
                · rw [if_pos herase]
                  refine ⟨keys_eraseA_nodup hknd, ?_⟩
                  intro e he
                  obtain ⟨hin, hne⟩ := mem_eraseA_nodup hknd he
                  obtain ⟨he1, he2, he3⟩ := wf_entry h hi hin
                  refine ⟨he1, he2, ?_⟩
                  intro x hx
                  have hxc : x ≠ cid :=
                    member_ne_of_channel_ne h hi hin hx hcr hne
                  refine clientOk_of_same_rec ?_ (he3 x hx)
                  show lookupA (updateA s.clients cid _) x = lookupA s.clients x
                  exact lookupA_updateA_ne _ _ _ _ (fun he4 => hxc he4.symm)
                · rw [if_neg herase]
                  refine ⟨keys_updateA_nodup hknd, ?_⟩
                  intro e he
                  rcases mem_updateA_nodup hknd he with heq | ⟨hin, hne⟩
                  · subst heq
                    refine ⟨rfl, ?_, ?_⟩
                    · exact List.Nodup.erase cid (chanEntry_members h hce).1
                    · intro x hx
                      have hxms : x ∈ ms := List.mem_of_mem_erase hx
                      have hxc : x ≠ cid :=
                        (List.Nodup.mem_erase_iff (chanEntry_members h hce).1).mp hx
                          |>.1
                      have hok := clientOk_iff.mpr
                        ((chanEntry_members h hce).2 x hxms)
                      refine clientOk_of_same_rec ?_ hok
                      show lookupA (updateA s.clients cid _) x = lookupA s.clients x
                      exact lookupA_updateA_ne _ _ _ _ (fun he4 => hxc he4.symm)
                  · obtain ⟨he1, he2, he3⟩ := wf_entry h hi hin
                    refine ⟨he1, he2, ?_⟩
                    intro x hx
                    have hxc : x ≠ cid :=
                      member_ne_of_channel_ne h hi hin hx hcr hne
                    refine clientOk_of_same_rec ?_ (he3 x hx)
                    show lookupA (updateA s.clients cid _) x = lookupA s.clients x
                    exact lookupA_updateA_ne _ _ _ _ (fun he4 => hxc he4.symm)
              · rw [if_neg hii]
                have hbm : (s.buckets.getD i [] : List (String × List ClientId))
                    = bucketMapAt s i := rfl
                rw [hbm]
                refine ⟨wf_bucket_keys_nodup h hi, ?_⟩
                intro e he
                obtain ⟨he1, he2, he3⟩ := wf_entry h hi he
                refine ⟨he1, he2, ?_⟩
                intro x hx
                have hne : e.1 ≠ cr.channelId := by
                  intro heq
                  apply hii
                  rw [← he1, heq]
                have hxc : x ≠ cid :=
                  member_ne_of_channel_ne h hi he hx hcr hne
                refine clientOk_of_same_rec ?_ (he3 x hx)
                show lookupA (updateA s.clients cid _) x = lookupA s.clients x
                exact lookupA_updateA_ne _ _ _ _ (fun he4 => hxc he4.symm)
            · intro e he
              rcases mem_updateA he with heq | hmem3
              · subst heq
                simp [hcount]
              · exact wf_closeCount h hmem3
      · rw [unregisterClient_not_member hcr hmem]
        exact h

theorem wf_broadcast {s : HubState} (h : wf s = true) (ch p : String) :
    wf (broadcastToChannel s ch p).1 = true := by
  cases hce : chanEntry s ch with
  | none => rw [broadcastToChannel_none p hce]; exact h
  | some ms =>
      have hlen0 : getBucket ch < s.buckets.length := by
        rw [wf_buckets_length h]; exact getBucket_lt ch
      have hms : lookupA (bucketMapAt s (getBucket ch)) ch = some ms := hce
      have hmsnd := (chanEntry_members h hce).1
      obtain ⟨f1, f2, f3⟩ := broadcast_foldl_spec p ms s.clients [] hmsnd
      have fkeys := broadcast_foldl_keys_nodup p ms s.clients []
        (wf_clients_keys_nodup h)
      have hr : (broadcastToChannel s ch p).1 =
          { buckets := s.buckets.set (getBucket ch)
              (updateA (bucketMapAt s (getBucket ch)) ch
                (ms.foldl (broadcastStep p) (s.clients, [])).2),
            clients := (ms.foldl (broadcastStep p) (s.clients, [])).1 } := by
        simp only [broadcastToChannel]
        rw [hms]
      rw [hr]
      apply wf_intro
      · show (s.buckets.set _ _).length = numBuckets
        rw [List.length_set]
        exact wf_buckets_length h
      · exact fkeys
      · intro i hi
        rw [bucketMapAt_set hlen0 i]
        by_cases hii : i = getBucket ch
        · rw [if_pos hii]
          subst hii
          have hknd := wf_bucket_keys_nodup h hi
          refine ⟨keys_updateA_nodup hknd, ?_⟩
          intro e he
          rcases mem_updateA_nodup hknd he with heq | ⟨hin, hne⟩
          · subst heq
            refine ⟨rfl, ?_, ?_⟩
            · rw [f3]
              simpa using List.Nodup.filter _ hmsnd
            · intro x hx
              rw [f3] at hx
              simp only [List.nil_append] at hx
              have hxms : x ∈ ms := List.mem_of_mem_filter hx
              have hxsp : spareCap s.clients x = true := List.of_mem_filter hx
              obtain ⟨cr1, hcr1, hch1, hcl1⟩ := (chanEntry_members h hce).2 x hxms
              have hcr1l : lookupA s.clients x = some cr1 := hcr1
              have hq : cr1.queue.length < cr1.qcap := by
                unfold spareCap at hxsp
                rw [hcr1l] at hxsp
                simpa using hxsp
              refine clientOk_iff.mpr
                ⟨{ cr1 with queue := cr1.queue ++ [p] }, ?_, hch1, hcl1⟩
              show lookupA (ms.foldl (broadcastStep p) (s.clients, [])).1 x = _
              rw [f2 x hxms, hcr1l]
              simp [applyDelivery, hq]
          · obtain ⟨he1, he2, he3⟩ := wf_entry h hi hin
            refine ⟨he1, he2, ?_⟩
            intro x hx
            have hxnot : x ∉ ms := member_other_channel_ne h hi hin hx hne hce
            refine clientOk_of_same_rec ?_ (he3 x hx)
            show lookupA (ms.foldl (broadcastStep p) (s.clients, [])).1 x
              = lookupA s.clients x
            exact f1 x hxnot
        · rw [if_neg hii]
          have hbm : (s.buckets.getD i [] : List (String × List ClientId))
              = bucketMapAt s i := rfl
          rw [hbm]
          refine ⟨wf_bucket_keys_nodup h hi, ?_⟩
          intro e he
          obtain ⟨he1, he2, he3⟩ := wf_entry h hi he
          refine ⟨he1, he2, ?_⟩
          intro x hx
          have hne : e.1 ≠ ch := by
            intro heq
            apply hii
            rw [← he1, heq]
          have hxnot : x ∉ ms := member_other_channel_ne h hi he hx hne hce
          refine clientOk_of_same_rec ?_ (he3 x hx)
          show lookupA (ms.foldl (broadcastStep p) (s.clients, [])).1 x
            = lookupA s.clients x
          exact f1 x hxnot
      · intro e he
        have hlk2 : lookupA (ms.foldl (broadcastStep p) (s.clients, [])).1 e.1
            = some e.2 := lookupA_of_mem_nodup fkeys he
        by_cases hxms : e.1 ∈ ms
        · rw [f2 e.1 hxms] at hlk2
          cases hlk : lookupA s.clients e.1 with
          | none => rw [hlk] at hlk2; simp at hlk2
          | some cr0 =>
              rw [hlk] at hlk2
              simp only [Option.map_some'] at hlk2
              have he2 : e.2 = applyDelivery p cr0 := (Option.some.inj hlk2).symm
              obtain ⟨cr1, hcr1, _, hcl1⟩ := (chanEntry_members h hce).2 e.1 hxms
              have hcr1l : lookupA s.clients e.1 = some cr1 := hcr1
              rw [hlk] at hcr1l
              cases Option.some.inj hcr1l
              have hcnt : cr0.closeCount = 0 := by
                have := wf_closeCount h (lookupA_mem hlk)
                simpa [hcl1] using this
              rw [he2]
              by_cases hq : cr0.queue.length < cr0.qcap
              · simp [applyDelivery, hq, hcl1, hcnt]
              · simp [applyDelivery, hq, hcnt]
        · rw [f1 e.1 hxms] at hlk2
          exact wf_closeCount h (lookupA_mem hlk2)

theorem wf_hubStep {s : HubState} (h : wf s = true) {op : HubOp}
    (hleg : legalOp s op = true) : wf (hubStep s op).1 = true := by
  cases op with
  | register cid ch uid uname qcap =>
      have hfresh : lookupA s.clients cid = none := by
        simp only [legalOp, Option.isNone_iff_eq_none] at hleg
        exact hleg
      exact wf_register h ch uid uname qcap hfresh
  | unregister cid => exact wf_unregister h cid
  | broadcast ch p => exact wf_broadcast h ch p

theorem wf_runOps {s : HubState} (h : wf s = true) :
    ∀ ops : List HubOp, legalFrom s ops = true → wf (runOps s ops).1 = true := by
  intro ops
  induction ops generalizing s with
  | nil => intro _; simpa [runOps] using h
  | cons op rest ih =>
      intro hleg
      simp only [legalFrom, Bool.and_eq_true] at hleg
      have h1 := wf_hubStep h hleg.1
      simpa [runOps] using ih h1 hleg.2

theorem wf_initHub : wf initHub = true := by decide

/-- A broadcast operation publishes no events (broadcastToChannel contains
no publisher call). -/
theorem broadcastToChannel_no_events (s : HubState) (ch p : String) :
    (broadcastToChannel s ch p).2 = [] := by
  simp only [broadcastToChannel]
  cases lookupA (bucketMapAt s (getBucket ch)) ch <;> rfl

/-! ## Event bridge (pubsub.go) and client messages (client.go) -/

/-- C1: a broadcast to channel ch appends the payload to the queue of
every member with spare capacity, which stays registered; every member
with a full queue is evicted — queue closed, entry removed from the set;
clients not under ch, in particular clients of any other channel even in
the same bucket, are untouched and receive nothing. -/
theorem broadcast_delivers_and_evicts (s : HubState) (ch p : String)
    (hwf : wf s = true) :
    (∀ cid cr, cid ∈ membersOf s ch → clientRec s cid = some cr →
      (cr.queue.length < cr.qcap →
        clientRec (broadcastToChannel s ch p).1 cid
          = some { cr with queue := cr.queue ++ [p] } ∧
        cid ∈ membersOf (broadcastToChannel s ch p).1 ch) ∧
      (¬ cr.queue.length < cr.qcap →
        clientRec (broadcastToChannel s ch p).1 cid
          = some { cr with closed := true, closeCount := cr.closeCount + 1 } ∧
        cid ∉ membersOf (broadcastToChannel s ch p).1 ch)) ∧
    (∀ cid, cid ∉ membersOf s ch →
      clientRec (broadcastToChannel s ch p).1 cid = clientRec s cid) ∧
    (∀ ch2, ch2 ≠ ch →
      membersOf (broadcastToChannel s ch p).1 ch2 = membersOf s ch2) := by
  cases hce : chanEntry s ch with
  | none =>
      rw [broadcastToChannel_none p hce]
      refine ⟨?_, fun _ _ => rfl, fun _ _ => rfl⟩
      intro cid cr hmem _
      exfalso
      unfold membersOf at hmem
      rw [hce] at hmem
      simp at hmem
  | some ms =>
      obtain ⟨_, hkept, hoth, hrecout, hrecin⟩ := broadcastToChannel_spec hwf ch p hce
      have hmemsOf : membersOf s ch = ms := by
        unfold membersOf
        rw [hce]
        rfl
      refine ⟨?_, ?_, ?_⟩
      · intro cid cr hmem hcr
        rw [hmemsOf] at hmem
        have hsp : spareCap s.clients cid = decide (cr.queue.length < cr.qcap) := by
          unfold spareCap
          rw [show lookupA s.clients cid = some cr from hcr]
        constructor
        · intro hq
          constructor
          · rw [hrecin cid hmem, show clientRec s cid = some cr from hcr]
            simp [applyDelivery, hq]
          · unfold membersOf
            rw [hkept]
            simp only [Option.getD_some]
            exact List.mem_filter.mpr ⟨hmem, by rw [hsp]; simpa using hq⟩
        · intro hq
          constructor
          · rw [hrecin cid hmem, show clientRec s cid = some cr from hcr]
            simp [applyDelivery, hq]
          · unfold membersOf
            rw [hkept]
            simp only [Option.getD_some]
            intro hc
            have hin := List.of_mem_filter hc
            rw [hsp] at hin
            exact hq (by simpa using hin)
      · intro cid hmem
        rw [hmemsOf] at hmem
        exact hrecout cid hmem
      · intro ch2 hne
        unfold membersOf
        rw [hoth ch2 hne]

/-- Witness for C1: at the concrete state, client 1 receives the payload
and stays registered while client 2 is evicted, closed, and removed. -/
theorem broadcast_delivers_and_evicts_witness :
    clientRec (broadcastToChannel broadcastDemoState "c1" "m2").1 1
      = some ⟨"c1", "u1", "Ann", 2, ["m1", "m2"], false, 0⟩ ∧
    clientRec (broadcastToChannel broadcastDemoState "c1" "m2").1 2
      = some ⟨"c1", "u2", "Bob", 1, ["m1"], true, 1⟩ ∧
    2 ∉ membersOf (broadcastToChannel broadcastDemoState "c1" "m2").1 "c1" := by
  have hth := broadcast_delivers_and_evicts broadcastDemoState "c1" "m2" (by decide)
  have h1 := (hth.1 1 ⟨"c1", "u1", "Ann", 2, ["m1"], false, 0⟩
    (by decide) (by decide)).1 (by decide)
  have h2 := (hth.1 2 ⟨"c1", "u2", "Bob", 1, ["m1"], false, 0⟩
    (by decide) (by decide)).2 (by decide)
  exact ⟨h1.1, h2.1, h2.2⟩

/-- C2 counterexample: a legal run in which the broadcast eviction path
removes the last member of channel c1 yet leaves the channel entry in the
bucket map: the entry exists with an empty member set. -/
theorem channel_entry_empty_after_eviction :
    legalFrom initHub [HubOp.register 1 "c1" "u1" "Ann" 1,
      HubOp.broadcast "c1" "a", HubOp.broadcast "c1" "b"] = true ∧
    chanEntry (runOps initHub [HubOp.register 1 "c1" "u1" "Ann" 1,
      HubOp.broadcast "c1" "a", HubOp.broadcast "c1" "b"]).1 "c1" = some [] := by
  decide

theorem getD_mem_or_default {α : Type} (l : List α) (i : Nat) (d : α) :
    l.getD i d ∈ l ∨ l.getD i d = d := by
  induction l generalizing i with
  | nil => right; cases i <;> rfl
  | cons x xs ih =>
      cases i with
      | zero => left; exact List.mem_cons_self _ _
      | succ j =>
          rcases ih j with h | h
          · left
            refine List.mem_cons_of_mem _ ?_
            simpa [List.getD] using h
          · right
            simpa [List.getD] using h

theorem noEmpty_lookup {s : HubState} (hne : noEmptyChannels s = true)
    {i : Nat} {e : String × List ClientId} (he : e ∈ bucketMapAt s i) :
    e.2 ≠ [] := by
  unfold noEmptyChannels at hne
  rw [List.all_eq_true] at hne
  unfold bucketMapAt at he
  rcases getD_mem_or_default s.buckets i [] with hm | hm
  · have := hne _ hm
    rw [List.all_eq_true] at this
    have h2 := this e he
    simp only [Bool.not_eq_true'] at h2
    intro hc
    rw [hc] at h2
    simp at h2
  · rw [hm] at he
    simp at he

theorem not_isEmpty_of_ne {α : Type} {l : List α} (h : l ≠ []) :
    (!l.isEmpty) = true := by
  cases l with
  | nil => exact absurd rfl h
  | cons x xs => rfl

/-- C2 amended: register makes its channel entry nonempty and unregister
deletes the entry when the set becomes empty, so these two handlers
preserve the no-empty-channel-entry invariant; the broadcast eviction
path does not (see the counterexample). -/
theorem register_unregister_no_empty (s : HubState)
    (hne : noEmptyChannels s = true) :
    (∀ cid ch uid uname qcap,
        noEmptyChannels (registerClient s cid ch uid uname qcap).1 = true) ∧
    (∀ cid, noEmptyChannels (unregisterClient s cid).1 = true) := by
  have hneAll : ∀ m ∈ s.buckets, ∀ e ∈ m,
      (!(e : String × List ClientId).2.isEmpty) = true := by
    intro m hm e he
    unfold noEmptyChannels at hne
    rw [List.all_eq_true] at hne
    have := hne m hm
    rw [List.all_eq_true] at this
    exact this e he
  constructor
  · intro cid ch uid uname qcap
    unfold noEmptyChannels
    rw [List.all_eq_true]
    intro m hm
    simp only [registerClient] at hm
    rcases List.mem_or_eq_of_mem_set hm with hmem | heq
    · rw [List.all_eq_true]
      intro e he
      exact hneAll m hmem e he
    · subst heq
      rw [List.all_eq_true]
      intro e he
      rcases mem_updateA he with heq2 | hmem2
      · subst heq2
        by_cases hin : cid ∈ (lookupA (bucketMapAt s (getBucket ch)) ch).getD []
        · rw [if_pos hin]
          exact not_isEmpty_of_ne (List.ne_nil_of_mem hin)
        · rw [if_neg hin]
          exact not_isEmpty_of_ne (by simp)
      · exact hneAll _ (by
          rcases getD_mem_or_default s.buckets (getBucket ch) [] with hm2 | hm2
          · exact hm2
          · exfalso
            unfold bucketMapAt at hmem2
            rw [hm2] at hmem2
            simp at hmem2) e hmem2
  · intro cid
    cases hcr : lookupA s.clients cid with
    | none =>
        rw [show unregisterClient s cid = (s, []) from
          unregisterClient_no_record hcr]
        exact hne
    | some cr =>
        cases hce : lookupA (bucketMapAt s (getBucket cr.channelId))
            cr.channelId with
        | none =>
            have hu : unregisterClient s cid = (s, []) := by
              simp only [unregisterClient, hcr, hce]
            rw [hu]
            exact hne
        | some ms =>
            by_cases hmem : cid ∈ ms
            · have hr : (unregisterClient s cid).1 =
                  { buckets := s.buckets.set (getBucket cr.channelId)
                      (if ms.erase cid = []
                       then eraseA (bucketMapAt s (getBucket cr.channelId))
                              cr.channelId
                       else updateA (bucketMapAt s (getBucket cr.channelId))
                              cr.channelId (ms.erase cid)),
                    clients := updateA s.clients cid
                      { cr with closed := true,
                                closeCount := cr.closeCount + 1 } } := by
                simp only [unregisterClient, hcr, hce]
                simp [hmem]
              rw [hr]
              unfold noEmptyChannels
              rw [List.all_eq_true]
              intro m hm
              simp only at hm
              rcases List.mem_or_eq_of_mem_set hm with hmem2 | heq
              · rw [List.all_eq_true]
                intro e he
                exact hneAll m hmem2 e he
              · subst heq
                rw [List.all_eq_true]
                intro e he
                by_cases herase : ms.erase cid = []
                · rw [if_pos herase] at he
                  have he2 := mem_eraseA he
                  exact not_isEmpty_of_ne
                    (@noEmpty_lookup s hne (getBucket cr.channelId) e he2)
                · rw [if_neg herase] at he
                  rcases mem_updateA he with heq2 | hmem3
                  · subst heq2
                    exact not_isEmpty_of_ne herase
                  · exact not_isEmpty_of_ne (noEmpty_lookup hne hmem3)
            · have hu : unregisterClient s cid = (s, []) := by
                simp only [unregisterClient, hcr, hce]
                simp [hmem]
              rw [hu]
              exact hne

/-- Witness for the amended C2: register then immediately unregister at a
concrete state leaves no empty channel entry. -/
theorem register_unregister_no_empty_witness :
    noEmptyChannels (runOps initHub [HubOp.register 1 "c1" "u1" "Ann" 1]).1
      = true ∧
    noEmptyChannels (unregisterClient
      (runOps initHub [HubOp.register 1 "c1" "u1" "Ann" 1]).1 1).1 = true :=
  ⟨by decide,
   (register_unregister_no_empty
      (runOps initHub [HubOp.register 1 "c1" "u1" "Ann" 1]).1 (by decide)).2 1⟩

/-- C7 counterexample: a legal run containing no unregister operation in
which a client queue is nonetheless closed — by the broadcast eviction
path of broadcastToChannel, refuting that closes happen only on the
unregistration path. -/
theorem close_by_broadcast_eviction :
    legalFrom initHub [HubOp.register 1 "c1" "u1" "Ann" 1,
      HubOp.broadcast "c1" "a", HubOp.broadcast "c1" "b"] = true ∧
    ([HubOp.register 1 "c1" "u1" "Ann" 1, HubOp.broadcast "c1" "a",
      HubOp.broadcast "c1" "b"].all (fun o => !o.isUnregisterOp)) = true ∧
    clientRec (runOps initHub [HubOp.register 1 "c1" "u1" "Ann" 1,
      HubOp.broadcast "c1" "a", HubOp.broadcast "c1" "b"]).1 1
      = some ⟨"c1", "u1", "Ann", 1, ["a"], true, 1⟩ := by
  decide

/-- C7 amended: over every legal run from the initial hub state, each
client queue is closed at most once — the close is performed either by
unregisterClient or by the broadcast eviction path, and both remove the
client from its channel set in the same step, so no second close can
occur. -/
theorem close_at_most_once (ops : List HubOp)
    (hleg : legalFrom initHub ops = true) :
    ∀ cid cr, clientRec (runOps initHub ops).1 cid = some cr →
      cr.closeCount ≤ 1 := by
  have hwf := wf_runOps wf_initHub ops hleg
  intro cid cr hcr
  have h2 := wf_closeCount hwf (lookupA_mem hcr)
  rw [h2]
  by_cases hcl : cr.closed <;> simp [hcl]

/-- Witness for the amended C7 at a concrete run. -/
theorem close_at_most_once_witness :
    legalFrom initHub [HubOp.register 1 "c1" "u1" "Ann" 1,
      HubOp.unregister 1] = true ∧
    clientRec (runOps initHub [HubOp.register 1 "c1" "u1" "Ann" 1,
      HubOp.unregister 1]).1 1 = some ⟨"c1", "u1", "Ann", 1, [], true, 1⟩ ∧
    (⟨"c1", "u1", "Ann", 1, [], true, 1⟩ : ClientRec).closeCount ≤ 1 :=
  ⟨by decide, by decide,
   close_at_most_once [HubOp.register 1 "c1" "u1" "Ann" 1, HubOp.unregister 1]
     (by decide) 1 ⟨"c1", "u1", "Ann", 1, [], true, 1⟩ (by decide)⟩

/-- C9: broadcast (and in particular its eviction branch) publishes no
events at all, an evicted client is absent from every channel member set,
and a subsequent unregister request for it finds it absent, changes
nothing and publishes no presence:leave. -/
theorem evicted_no_presence_leave (s : HubState) (ch p : String)
    (cid : ClientId) (cr : ClientRec) (hwf : wf s = true)
    (hcr : clientRec s cid = some cr) (hcl : cr.closed = true) :
    (broadcastToChannel s ch p).2 = [] ∧
    cid ∉ membersOf s cr.channelId ∧
    unregisterClient s cid = (s, []) := by
  have hnot := wf_closed_not_member hwf hcr hcl cr.channelId
  exact ⟨broadcastToChannel_no_events s ch p, hnot,
    unregisterClient_not_member hcr hnot⟩

/-- Witness for C9: the concrete state in which client 1 was evicted by a
broadcast; unregistering it afterwards changes nothing and emits no
event. -/
theorem evicted_no_presence_leave_witness :
    unregisterClient (runOps initHub [HubOp.register 1 "c1" "u1" "Ann" 1,
        HubOp.broadcast "c1" "a", HubOp.broadcast "c1" "b"]).1 1
      = ((runOps initHub [HubOp.register 1 "c1" "u1" "Ann" 1,
          HubOp.broadcast "c1" "a", HubOp.broadcast "c1" "b"]).1, []) :=
  (evicted_no_presence_leave
    (runOps initHub [HubOp.register 1 "c1" "u1" "Ann" 1,
      HubOp.broadcast "c1" "a", HubOp.broadcast "c1" "b"]).1
    "c1" "x" 1 ⟨"c1", "u1", "Ann", 1, ["a"], true, 1⟩
    (by decide) (by decide) rfl).2.2

/-- C3 counterexample: the ingress channel created by NewHub is unbuffered
(capacity 0), so at the moment the bridge submits, the queue has no spare
buffer capacity; yet the submitted message is not dropped — it is handed
to the Run loop and delivered to the registered client, and no warning
path exists. -/
theorem broadcast_ingress_not_dropped :
    broadcastChanCap = 0 ∧
    clientRec (subscribeHandleMessage
      (runOps initHub [HubOp.register 1 "c1" "u1" "Ann" 256]).1
      "rawbytes"
      (some { etype := "message:created", channelId := "c1",
              timestamp := 1700000000,
              data := Json.obj [("id", Json.str "m1")] })).1 1
      = some ⟨"c1", "u1", "Ann", 256, ["rawbytes"], false, 0⟩ := by
  exact ⟨rfl, by decide⟩

/-- C3 amended: the hub ingress is one unbuffered hub-wide channel
(capacity 0); the bridge submission is a blocking send, after which the
Run loop routes the message by channel-id hash inside broadcastToChannel;
a message whose payload fails to decode is skipped; nothing is dropped at
the ingress and no warning is recorded there. -/
theorem broadcast_ingress_amended (s : HubState) (payload : String)
    (ev : Event) :
    broadcastChanCap = 0 ∧
    subscribeHandleMessage s payload (some ev)
      = broadcastToChannel s ev.channelId payload ∧
    subscribeHandleMessage s payload none = (s, []) :=
  ⟨rfl, rfl, rfl⟩

/-! ## Token validation (package auth in cmd/server/main.go)

The JWKS refresh, the derived-key cache, RSA key derivation from JWK
components, and ValidateToken.  The two genuinely cryptographic
primitives — the structural parsing of a compact JWT and the RSA
signature check — are taken as oracles (parse, verify) supplied to the
validator; everything around them is modelled from the source, including
the claim validation that golang-jwt v5 ParseWithClaims performs (the exp
claim, when present, must be strictly in the future). -/

theorem getPublicKey_ok_facts {st : AuthState} {kid : String}
    (h : isOkE (getPublicKey st kid).1 = true) :
    (lookupA st.jwksCache kid).isSome = true ∨
    (∃ jwks jwk, st.kindeJWKS = some jwks ∧
      jwks.keys.find? (fun j => j.kid == kid) = some jwk) := by
  unfold getPublicKey at h
  split at h
  · rename_i key hc
    left
    rw [hc]
    rfl
  · rename_i hc
    split at h
    · simp [isOkE] at h
    · rename_i jwks hj
      split at h
      · rename_i jwk hf
        exact Or.inr ⟨jwks, jwk, hj, hf⟩
      · simp [isOkE] at h

theorem checkClaims_ok_facts {iss : String} {now : Int} {claims : TokenClaims}
    (h : isOkE (checkClaims iss now claims) = true) :
    claims.issuer = iss ∧
    checkClaims iss now claims = Except.ok claims := by
  unfold checkClaims at h ⊢
  split at h
  · simp [isOkE] at h
  · rename_i hiss
    rw [if_neg hiss]
    refine ⟨not_not.mp hiss, ?_⟩
    split at h
    · rename_i e heq
      split at h
      · simp [isOkE] at h
      · rename_i hlt
        rw [if_neg hlt]
    · rfl

theorem validateNbfAndClaims_ok_facts {iss : String} {now : Int}
    {tok : ParsedToken}
    (h : isOkE (validateNbfAndClaims iss now tok) = true) :
    tok.claims.issuer = iss ∧
    (∀ nb, tok.claims.notBefore = some nb → ¬ now < nb) := by
  unfold validateNbfAndClaims at h
  split at h
  · rename_i nb hnb
    split at h
    · simp [isOkE] at h
    · rename_i hlt
      refine ⟨(checkClaims_ok_facts h).1, ?_⟩
      intro nb2 hnb2
      rw [hnb] at hnb2
      rw [← Option.some.inj hnb2]
      exact hlt
  · rename_i hnb
    refine ⟨(checkClaims_ok_facts h).1, ?_⟩
    intro nb2 hnb2
    rw [hnb] at hnb2
    exact Option.noConfusion hnb2

theorem validateToken_ok_facts {parse : String → Option ParsedToken}
    {verify : RSAPublicKey → ParsedToken → Bool} {now : Int}
    {st : AuthState} {raw : String}
    (hok : isOkE (validateToken parse verify now st raw).1 = true) :
    trimBearer raw ≠ "" ∧
    ∃ tok kid, parse (trimBearer raw) = some tok ∧
      tok.method.isRSA = true ∧
      tok.kid = some kid ∧
      isOkE (getPublicKey st kid).1 = true ∧
      tok.claims.issuer = st.kindeIssuer ∧
      (∀ e, tok.claims.expiresAt = some e → now < e) ∧
      (∀ nb, tok.claims.notBefore = some nb → ¬ now < nb) := by
  simp only [validateToken] at hok
  split at hok
  · simp [isOkE] at hok
  · rename_i ht
    refine ⟨ht, ?_⟩
    split at hok
    · simp [isOkE] at hok
    · rename_i tok hp
      split at hok
      · simp [isOkE] at hok
      · rename_i hm
        split at hok
        · simp [isOkE] at hok
        · rename_i kid hk
          split at hok
          · simp [isOkE] at hok
          · rename_i key st1 hg
            split at hok
            · simp [isOkE] at hok
            · rename_i hv
              refine ⟨tok, kid, hp, by simpa using hm, hk,
                by rw [hg]; rfl, ?_⟩
              split at hok
              · rename_i e he
                split at hok
                · rename_i hlt
                  obtain ⟨hiss2, hnbf2⟩ := validateNbfAndClaims_ok_facts hok
                  refine ⟨hiss2, ?_, hnbf2⟩
                  intro e2 he2
                  rw [he] at he2
                  rw [← Option.some.inj he2]
                  exact hlt
                · simp [isOkE] at hok
              · rename_i he
                obtain ⟨hiss2, hnbf2⟩ := validateNbfAndClaims_ok_facts hok
                refine ⟨hiss2, ?_, hnbf2⟩
                intro e2 he2
                rw [he] at he2
                exact Option.noConfusion he2

/-! ## Claim theorems for the validator -/

/-- C4: ValidateToken fails on an empty token after the optional Bearer
strip, fails when the signing method is not RSA-family, fails when the
kid is in neither the derived-key cache nor the current key set, fails
when the issuer differs from the configured issuer, fails when the expiry
is not strictly in the future, and fails when a not-before claim is in
the future (the library validates nbf by default); and for a parsable RSA
token with a known kid, a verifying signature, matching issuer,
strictly-future expiry and no future not-before it returns the decoded
claims (whose subject and given name ServeWS uses as user id and display
name). -/
theorem validateToken_spec (parse : String → Option ParsedToken)
    (verify : RSAPublicKey → ParsedToken → Bool) (now : Int)
    (st : AuthState) (raw : String) :
    (trimBearer raw = "" →
      (validateToken parse verify now st raw).1
        = Except.error AuthError.emptyToken) ∧
    (∀ tok, parse (trimBearer raw) = some tok →
      tok.method.isRSA = false →
      isOkE (validateToken parse verify now st raw).1 = false) ∧
    (∀ tok kid, parse (trimBearer raw) = some tok → tok.kid = some kid →
      lookupA st.jwksCache kid = none →
      (∀ jwks, st.kindeJWKS = some jwks →
        jwks.keys.find? (fun jwk => jwk.kid == kid) = none) →
      isOkE (validateToken parse verify now st raw).1 = false) ∧
    (∀ tok, parse (trimBearer raw) = some tok →
      tok.claims.issuer ≠ st.kindeIssuer →
      isOkE (validateToken parse verify now st raw).1 = false) ∧
    (∀ tok e, parse (trimBearer raw) = some tok →
      tok.claims.expiresAt = some e → ¬ now < e →
      isOkE (validateToken parse verify now st raw).1 = false) ∧
    (∀ tok nb, parse (trimBearer raw) = some tok →
      tok.claims.notBefore = some nb → now < nb →
      isOkE (validateToken parse verify now st raw).1 = false) ∧
    (∀ tok kid key st1, trimBearer raw ≠ "" →
      parse (trimBearer raw) = some tok →
      tok.method.isRSA = true → tok.kid = some kid →
      getPublicKey st kid = (Except.ok key, st1) →
      verify key tok = true →
      tok.claims.issuer = st.kindeIssuer →
      (∀ e, tok.claims.expiresAt = some e → now < e) →
      (∀ nb, tok.claims.notBefore = some nb → ¬ now < nb) →
      validateToken parse verify now st raw
        = (Except.ok tok.claims, st1)) := by
  refine ⟨?_, ?_, ?_, ?_, ?_, ?_, ?_⟩
  · intro ht
    simp [validateToken, ht]
  · intro tok hp hm
    cases hok : isOkE (validateToken parse verify now st raw).1 with
    | false => rfl
    | true =>
        exfalso
        obtain ⟨_, tok2, kid2, hp2, hm2, _⟩ := validateToken_ok_facts hok
        rw [hp] at hp2
        cases Option.some.inj hp2
        rw [hm] at hm2
        exact Bool.noConfusion hm2
  · intro tok kid hp hk hc hf
    cases hok : isOkE (validateToken parse verify now st raw).1 with
    | false => rfl
    | true =>
        exfalso
        obtain ⟨_, tok2, kid2, hp2, _, hk2, hg2, _⟩ := validateToken_ok_facts hok
        rw [hp] at hp2
        cases Option.some.inj hp2
        rw [hk] at hk2
        cases Option.some.inj hk2
        rcases getPublicKey_ok_facts hg2 with hcs | ⟨jwks, jwk, hj, hfind⟩
        · rw [hc] at hcs
          simp at hcs
        · rw [hf jwks hj] at hfind
          exact Option.noConfusion hfind
  · intro tok hp hiss
    cases hok : isOkE (validateToken parse verify now st raw).1 with
    | false => rfl
    | true =>
        exfalso
        obtain ⟨_, tok2, kid2, hp2, _, _, _, hiss2, _⟩ := validateToken_ok_facts hok
        rw [hp] at hp2
        cases Option.some.inj hp2
        exact hiss hiss2
  · intro tok e hp he hlt
    cases hok : isOkE (validateToken parse verify now st raw).1 with
    | false => rfl
    | true =>
        exfalso
        obtain ⟨_, tok2, kid2, hp2, _, _, _, _, hexp, _⟩ :=
          validateToken_ok_facts hok
        rw [hp] at hp2
        cases Option.some.inj hp2
        exact hlt (hexp e he)
  · intro tok nb hp hnb hlt
    cases hok : isOkE (validateToken parse verify now st raw).1 with
    | false => rfl
    | true =>
        exfalso
        obtain ⟨_, tok2, kid2, hp2, _, _, _, _, _, hnbf⟩ :=
          validateToken_ok_facts hok
        rw [hp] at hp2
        cases Option.some.inj hp2
        exact hnbf nb hnb hlt
  · intro tok kid key st1 ht hp hm hk hg hv hiss hexp hnbf
    have hcc : checkClaims st.kindeIssuer now tok.claims
        = Except.ok tok.claims := by
      unfold checkClaims
      rw [if_neg (not_not_intro hiss)]
      split
      · rename_i e he2
        rw [if_neg (by have hlt := hexp e he2; omega)]
      · rfl
    have hnc : validateNbfAndClaims st.kindeIssuer now tok
        = Except.ok tok.claims := by
      unfold validateNbfAndClaims
      split
      · rename_i nb hnb2
        rw [if_neg (hnbf nb hnb2), hcc]
      · rw [hcc]
    unfold validateToken
    rw [if_neg ht]
    simp only [hp, hm, hk, hg, hv]
    rw [if_neg (by decide), if_neg (by decide)]
    split
    · rename_i e he
      rw [if_pos (hexp e he), hnc]
    · rw [hnc]

/-- Witness for C4: the success path of the validator at concrete inputs,
including the Bearer strip and the key derivation and caching. -/
theorem validateToken_spec_witness :
    validateToken parse0 verify0 1700000000 st0 "Bearer tok"
      = (Except.ok tok0.claims,
         { st0 with jwksCache := [("kid1", { n := 1, e := 65537 })] }) :=
  (validateToken_spec parse0 verify0 1700000000 st0 "Bearer tok").2.2.2.2.2.2
    tok0 "kid1" { n := 1, e := 65537 }
    { st0 with jwksCache := [("kid1", { n := 1, e := 65537 })] }
    (by decide) (by decide) rfl rfl (by decide) rfl rfl
    (by
      intro e he
      rw [← Option.some.inj he]
      decide)
    (by
      intro nb hnb
      rw [← Option.some.inj hnb]
      decide)

/-- C5: a key-set refresh that fails at any step (transport error, non-OK
status, body decode failure) reports the failure and leaves the state —
key set, derived-key cache and issuer — exactly as it was, so every token
validates exactly as before the attempt; only a fully successful fetch
swaps the key set as a whole and clears the derived-key cache. -/
theorem refreshJWKS_failure_preserves (st : AuthState) (r : FetchResult) :
    ((refreshJWKS st r).2.isSome = true → (refreshJWKS st r).1 = st) ∧
    ((refreshJWKS st r).2 = none →
      ∃ jwks, r = FetchResult.response 200 (some jwks) ∧
        (refreshJWKS st r).1
          = { st with kindeJWKS := some jwks, jwksCache := [] }) ∧
    ((refreshJWKS st r).2.isSome = true →
      ∀ parse verify now tk,
        validateToken parse verify now (refreshJWKS st r).1 tk
          = validateToken parse verify now st tk) := by
  have h1 : (refreshJWKS st r).2.isSome = true → (refreshJWKS st r).1 = st := by
    cases r with
    | netError msg => intro _; rfl
    | response status body =>
        by_cases hs : status ≠ 200
        · intro _
          simp [refreshJWKS, hs]
        · cases body with
          | none =>
              intro _
              simp [refreshJWKS, hs]
          | some jwks =>
              intro hcon
              simp [refreshJWKS, hs] at hcon
  refine ⟨h1, ?_, ?_⟩
  · intro hn
    cases r with
    | netError msg => simp [refreshJWKS] at hn
    | response status body =>
        by_cases hs : status ≠ 200
        · simp [refreshJWKS, hs] at hn
        · cases body with
          | none => simp [refreshJWKS, hs] at hn
          | some jwks =>
              have hs2 : status = 200 := not_not.mp hs
              subst hs2
              exact ⟨jwks, rfl, by simp [refreshJWKS]⟩
  · intro hsome parse verify now tk
    rw [h1 hsome]

/-- Witness for C5: a failed refresh (HTTP 500) at a concrete state
changes nothing. -/
theorem refreshJWKS_failure_preserves_witness :
    (refreshJWKS st0 (FetchResult.response 500 none)).1 = st0 :=
  (refreshJWKS_failure_preserves st0 (FetchResult.response 500 none)).1
    (by decide)

/-- C10: for every JWK whose base64url fields decode successfully,
jwkToPublicKey returns a key without error, and when the decoded exponent
byte sequence is empty the exponent of the returned key is 0 — an empty
exponent is not reported as a malformed-key error. -/
theorem jwkToPublicKey_empty_exponent (jwk : JWK) (nBytes eBytes : List Nat)
    (hn : base64urlDecode jwk.n = some nBytes)
    (he : base64urlDecode jwk.e = some eBytes) :
    jwkToPublicKey jwk
      = Except.ok { n := bigIntSetBytes nBytes, e := goIntFromBytes eBytes } ∧
    (eBytes = [] → goIntFromBytes eBytes = 0) := by
  constructor
  · unfold jwkToPublicKey
    rw [hn, he]
  · intro h
    subst h
    decide

/-- Witness for C10: a JWK with an empty exponent field decodes to an
empty byte sequence and yields a key with exponent 0, not an error. -/
theorem jwkToPublicKey_empty_exponent_witness :
    base64urlDecode "AQ" = some [1] ∧
    base64urlDecode "" = some [] ∧
    jwkToPublicKey ⟨"kid1", "RSA", "sig", "AQ", "", "RS256"⟩
      = Except.ok { n := 1, e := 0 } :=
  ⟨by decide, by decide,
   (jwkToPublicKey_empty_exponent ⟨"kid1", "RSA", "sig", "AQ", "", "RS256"⟩
      [1] [] (by decide) (by decide)).1⟩

/-! ## The connection endpoint gate (ServeWS, message.go) -/

/-- C8: the three pre-upgrade gates of ServeWS — no token (neither query
parameter nor header) gives 401 before upgrade; an invalid token gives
401 before upgrade; a missing channelId gives 400 before upgrade; when
all three checks pass the upgrade is attempted, and on a successful
upgrade the connection is constructed from the claims with a 256-slot
queue, registered, and the pumps started; conversely an upgrade is
attempted only when all three checks passed. -/
theorem serveWS_gate (validate : String → Except AuthError TokenClaims)
    (r : WsRequest) :
    (selectToken r = "" ↔ r.queryToken = "" ∧ r.authHeader = "") ∧
    (selectToken r = "" →
      serveWS validate r = ⟨some 401, false, none, false⟩) ∧
    (∀ err, selectToken r ≠ "" →
      validate (selectToken r) = Except.error err →
      serveWS validate r = ⟨some 401, false, none, false⟩) ∧
    (∀ claims, selectToken r ≠ "" →
      validate (selectToken r) = Except.ok claims →
      r.queryChannelId = "" →
      serveWS validate r = ⟨some 400, false, none, false⟩) ∧
    (∀ claims, selectToken r ≠ "" →
      validate (selectToken r) = Except.ok claims →
      r.queryChannelId ≠ "" →
      (serveWS validate r).upgraded = true ∧
      (r.upgradeOk = true →
        serveWS validate r = ⟨none, true,
          some ⟨r.queryChannelId, claims.subject, claims.givenName, 256⟩,
          true⟩)) ∧
    ((serveWS validate r).upgraded = true →
      selectToken r ≠ "" ∧
      (∃ claims, validate (selectToken r) = Except.ok claims) ∧
      r.queryChannelId ≠ "") := by
  refine ⟨?_, ?_, ?_, ?_, ?_, ?_⟩
  · unfold selectToken
    by_cases hq : r.queryToken ≠ ""
    · rw [if_pos hq]
      constructor
      · intro h; exact absurd h hq
      · intro h; exact absurd h.1 hq
    · rw [if_neg hq]
      have hq2 : r.queryToken = "" := not_not.mp hq
      constructor
      · intro h; exact ⟨hq2, h⟩
      · intro h; exact h.2
  · intro ht
    simp [serveWS, ht]
  · intro err ht hv
    unfold serveWS
    rw [if_neg ht]
    simp [hv]
  · intro claims ht hv hc
    unfold serveWS
    rw [if_neg ht]
    simp [hv, hc]
  · intro claims ht hv hc
    unfold serveWS
    rw [if_neg ht]
    simp only [hv]
    rw [if_neg hc]
    by_cases hu : r.upgradeOk = false
    · rw [if_pos hu]
      exact ⟨rfl, fun h2 => absurd h2 (by rw [hu]; exact fun hc2 => Bool.noConfusion hc2)⟩
    · rw [if_neg hu]
      exact ⟨rfl, fun _ => rfl⟩
  · intro hupg
    simp only [serveWS] at hupg
    split at hupg
    · simp at hupg
    · rename_i ht
      refine ⟨ht, ?_⟩
      split at hupg
      · simp at hupg
      · rename_i claims hv
        refine ⟨⟨claims, hv⟩, ?_⟩
        intro hc
        rw [if_pos hc] at hupg
        simp at hupg

/-- Witness for C8: the success path at a concrete request. -/
theorem serveWS_gate_witness :
    serveWS
      (fun s => if s = "tok" then Except.ok
          { issuer := "i", subject := "u1", expiresAt := none,
            notBefore := none, givenName := "Ann", familyName := "",
            email := "", permissions := [] }
        else Except.error AuthError.emptyToken)
      { queryToken := "tok", authHeader := "", queryChannelId := "c1",
        upgradeOk := true }
      = ⟨none, true, some ⟨"c1", "u1", "Ann", 256⟩, true⟩ :=
  ((serveWS_gate
      (fun s => if s = "tok" then Except.ok
          { issuer := "i", subject := "u1", expiresAt := none,
            notBefore := none, givenName := "Ann", familyName := "",
            email := "", permissions := [] }
        else Except.error AuthError.emptyToken)
      { queryToken := "tok", authHeader := "", queryChannelId := "c1",
        upgradeOk := true }).2.2.2.2.1
    { issuer := "i", subject := "u1", expiresAt := none, notBefore := none,
      givenName := "Ann", familyName := "", email := "", permissions := [] }
    (by decide) rfl (by decide)).2 rfl

/-! ## Claim theorem for the typing events (client.go, redis/client.go) -/

/-- C6 evidence: a typing:start message from a connection under channel c1
with user u1 and name Ann, whose data object carries threadId t1, is
republished to topic channel:c1 tagged with userId u1 and userName Ann —
but with no threadId in the envelope data: handleClientMessage never
reads the data object and the publisher it calls takes no thread id. -/
theorem typing_start_drops_threadId :
    handleClientMessage ⟨"c1", "u1", "Ann"⟩ 0
      (some [("type", Json.str "typing:start"),
             ("data", Json.obj [("threadId", Json.str "t1")])])
      = [publishTypingStart "c1" "u1" "Ann" 0] ∧
    (publishTypingStart "c1" "u1" "Ann" 0).topic = "channel:c1" ∧
    lookupA (objFields (publishTypingStart "c1" "u1" "Ann" 0).event.data)
      "userId" = some (Json.str "u1") ∧
    lookupA (objFields (publishTypingStart "c1" "u1" "Ann" 0).event.data)
      "userName" = some (Json.str "Ann") ∧
    lookupA (objFields (publishTypingStart "c1" "u1" "Ann" 0).event.data)
      "threadId" = none :=
  ⟨rfl, rfl, rfl, rfl, rfl⟩

end GoWS

